import Mathlib

/-!
# Grid tracer (`tracer.h`): polygon outline tracing and column fill

A shallow embedding of `trace::V2`, `trace::trace_line` and `trace::pick_cells`.

* `double` values are read as elements of a linearly ordered field `K` with a floor
  (exact arithmetic); every definition is computable and runs at `K = ℚ`. A quotient
  by zero is 0 in `K`, where C++ has an infinity or a NaN.
* `std::hypot` is a library function and is passed in as the parameter `hypot`.
* `int` is `Int` (signed overflow, undefined in C++, is not modelled); `size_t` is `Nat`
  and is taken to be 64 bits wide: the mixed `int * size_t` products of `trace_line`
  are reduced modulo `2 ^ 64`, as the usual arithmetic conversions do.
* `std::set<V2i>` is the list of its elements in iteration order, that is a list
  strictly increasing for `V2::operator<`; `set_insert` is `std::set::insert`.
* `fill_step_spec` and `inner_fill_spec` are the scan of the interior fill as the
  specification words it; they are compared with `fill_step` and `inner_fill`.
-/

namespace trace

/-! ## The point type `V2<_T>` -/

/-- The template `V2<_T>`: a pair of coordinates. -/
structure V2 (T : Type) where
  x : T
  y : T
deriving DecidableEq, Repr

/-- The alias `V2i = V2<int>`. -/
abbrev V2i := V2 Int

/-- The member `V2::operator-`. -/
def V2.sub {T : Type} [Sub T] (a b : V2 T) : V2 T :=
  ⟨a.x - b.x, a.y - b.y⟩

/-- The member `V2::operator<` at `int`: `(x == rhs.x) ? (y < rhs.y) : (x < rhs.x)`. -/
def V2.lt (a b : V2i) : Prop :=
  if a.x = b.x then a.y < b.y else a.x < b.x

instance V2.decLt (a b : V2i) : Decidable (V2.lt a b) := by
  unfold V2.lt
  exact inferInstance

instance V2.instIsAntisymm : IsAntisymm V2i V2.lt where
  antisymm a b h1 h2 := by
    unfold V2.lt at h1 h2
    split_ifs at h1 h2 <;> omega

/-! ## `std::set<V2i>` -/

/-- The call `std::set<V2i>::insert(a)` on the set whose elements, in iteration order,
are the given list: `a` goes before the first element it is less than, and is dropped
when an equivalent element (neither less than the other) is met. -/
def set_insert (a : V2i) : List V2i → List V2i
  | [] => [a]
  | b :: l =>
    if V2.lt a b then a :: b :: l
    else if V2.lt b a then b :: set_insert a l
    else b :: l

/-- The lambda `add_to_set` of `pick_cells`: range insertion of `to_append` into `set`. -/
def add_to_set (set to_append : List V2i) : List V2i :=
  to_append.foldl (fun s c => set_insert c s) set

/-! ## `trace_line` -/

/-- The constant `std::numeric_limits<double>::max()`. -/
def DBL_MAX : Nat := 2 ^ 1024 - 2 ^ 971

/-- Conversion of an `int` to `size_t` (64 bits): reduction modulo `2 ^ 64`. -/
def size_t_of_int (i : Int) : Nat := (i % 2 ^ 64).toNat

/-- Multiplication of two `size_t` values. -/
def size_t_mul (a b : Nat) : Nat := (a * b) % 2 ^ 64

section Tracer

variable {K : Type} [LinearOrderedField K] [FloorRing K]

/-- The lambda `point_to_grid_fnc` of `trace_line`. -/
def point_to_grid_fnc (cell_size : Nat) (point : V2 K) : V2i :=
  ⟨⌊point.x / (cell_size : K)⌋, ⌊point.y / (cell_size : K)⌋⟩

/-- The tracing loop of `trace_line`, `while (counter != grid_bound_x + grid_bound_y)`;
the first argument is the number of iterations left. -/
def trace_loop (step_x step_y : Int) (dx dy : K) :
    Nat → K → K → V2i → List V2i → List V2i
  | 0, _, _, _, cells => cells
  | n + 1, ray_step_to_vside, ray_step_to_hside, current_cell, cells =>
    if |ray_step_to_vside| < |ray_step_to_hside| then
      let c : V2i := ⟨current_cell.x + step_x, current_cell.y⟩
      trace_loop step_x step_y dx dy n (ray_step_to_vside + dx) ray_step_to_hside c
        (set_insert c cells)
    else
      let c : V2i := ⟨current_cell.x, current_cell.y + step_y⟩
      trace_loop step_x step_y dx dy n ray_step_to_vside (ray_step_to_hside + dy) c
        (set_insert c cells)

/-- The function `trace_line` at `PointType = V2d`. -/
def trace_line (hypot : K → K → K) (start_point end_point : V2 K) (cell_size : Nat) :
    List V2i :=
  let start_cell := point_to_grid_fnc cell_size start_point
  let last_cell := point_to_grid_fnc cell_size end_point
  let direction := end_point.sub start_point
  let step_x : Int := if direction.x ≥ 0 then 1 else -1
  let step_y : Int := if direction.y ≥ 0 then 1 else -1
  let hyp : K := hypot direction.x direction.y
  let norm_direction : V2 K := ⟨direction.x / hyp, direction.y / hyp⟩
  let near_x : K :=
    if step_x ≥ 0 then
      (size_t_mul (size_t_of_int (start_cell.x + 1)) cell_size : K) - start_point.x
    else start_point.x - (size_t_mul (size_t_of_int start_cell.x) cell_size : K)
  let near_y : K :=
    if step_y ≥ 0 then
      (size_t_mul (size_t_of_int (start_cell.y + 1)) cell_size : K) - start_point.y
    else start_point.y - (size_t_mul (size_t_of_int start_cell.y) cell_size : K)
  let ray_step_to_vside : K :=
    if norm_direction.x ≠ 0 then near_x / norm_direction.x else (DBL_MAX : K)
  let ray_step_to_hside : K :=
    if norm_direction.y ≠ 0 then near_y / norm_direction.y else (DBL_MAX : K)
  let dx : K := if norm_direction.x ≠ 0 then (cell_size : K) / norm_direction.x else (DBL_MAX : K)
  let dy : K := if norm_direction.y ≠ 0 then (cell_size : K) / norm_direction.y else (DBL_MAX : K)
  let grid_bound_x : Nat := (last_cell.x - start_cell.x).natAbs
  let grid_bound_y : Nat := (last_cell.y - start_cell.y).natAbs
  trace_loop step_x step_y dx dy (grid_bound_x + grid_bound_y)
    ray_step_to_vside ray_step_to_hside start_cell (set_insert start_cell [])

/-! ## `pick_cells` -/

/-- The pairs of points `pick_cells` hands to `trace_line`: `(*it, *std::next(it))` for
`it` from `cbegin()` up to `std::prev(cend())`, then `(back(), front())`. -/
def closed_edges {P : Type} : List P → List (P × P)
  | [] => []
  | p :: ps => (p :: ps).zip ps ++ [((p :: ps).getLast (List.cons_ne_nil p ps), p)]

/-- The set `cells` of `pick_cells` after the `//Outline` part: the traces of all edges,
collected in the order of `results`. -/
def outline (hypot : K → K → K) (points : List (V2 K)) (cell_size : Nat) : List V2i :=
  ((closed_edges points).map (fun e => trace_line hypot e.1 e.2 cell_size)).foldl
    add_to_set []

end Tracer

/-- The inner loop `for (int i = counter; i < it.y; ++i) to_add.insert(V2i(it.x, i))`;
the first argument is the number of iterations left. -/
def fill_column (x : Int) : Nat → Int → List V2i → List V2i
  | 0, _, to_add => to_add
  | n + 1, i, to_add => fill_column x n (i + 1) (set_insert ⟨x, i⟩ to_add)

/-- The variables of the `//Inner` part of `pick_cells`. -/
structure FillState where
  last_x : Int
  counter : Int
  to_add : List V2i
deriving DecidableEq, Repr

/-- One iteration of `for (auto& it : cells)` in the `//Inner` part of `pick_cells`. -/
def fill_step (st : FillState) (it : V2i) : FillState :=
  let st1 : FillState :=
    if st.last_x ≠ it.x then ⟨it.x, it.y, st.to_add⟩ else st
  let to_add :=
    if it.y > st1.counter then
      fill_column it.x (it.y - st1.counter).toNat st1.counter st1.to_add
    else st1.to_add
  ⟨st1.last_x, st1.counter + 1, to_add⟩

/-- The `//Inner` part of `pick_cells` on the outline `cells`: `none` when the set is
empty, where `cells.begin()` may not be dereferenced. -/
def inner_fill (cells : List V2i) : Option (List V2i) :=
  match cells with
  | [] => none
  | c :: _ => some (add_to_set cells (cells.foldl fill_step ⟨c.x, c.y, []⟩).to_add)

/-- The function `pick_cells` on a container of `V2d` points. -/
def pick_cells {K : Type} [LinearOrderedField K] [FloorRing K] (hypot : K → K → K)
    (points : List (V2 K)) (cell_size : Nat) : Option (List V2i) :=
  if points.length < 2 ∨ cell_size ≤ 0 then some []
  else inner_fill (outline hypot points cell_size)

/-- An instance of `std::hypot` on rationals: exact whenever `x * x + y * y` is the
square of a rational. -/
def hypotQ (x y : ℚ) : ℚ := Rat.sqrt (x * x + y * y)

/-! ## The locals of `trace_line` -/

section RayDefs

variable {K : Type} [LinearOrderedField K] [FloorRing K]

/-- The local `ray_step_to_vside` of `trace_line`, before the loop. -/
def ray_step_to_vside (hypot : K → K → K) (start_point end_point : V2 K)
    (cell_size : Nat) : K :=
  let start_cell := point_to_grid_fnc cell_size start_point
  let direction := end_point.sub start_point
  let step_x : Int := if direction.x ≥ 0 then 1 else -1
  let hyp : K := hypot direction.x direction.y
  let norm_direction : V2 K := ⟨direction.x / hyp, direction.y / hyp⟩
  let near_x : K :=
    if step_x ≥ 0 then
      (size_t_mul (size_t_of_int (start_cell.x + 1)) cell_size : K) - start_point.x
    else start_point.x - (size_t_mul (size_t_of_int start_cell.x) cell_size : K)
  if norm_direction.x ≠ 0 then near_x / norm_direction.x else (DBL_MAX : K)

/-- The local `ray_step_to_hside` of `trace_line`, before the loop. -/
def ray_step_to_hside (hypot : K → K → K) (start_point end_point : V2 K)
    (cell_size : Nat) : K :=
  let start_cell := point_to_grid_fnc cell_size start_point
  let direction := end_point.sub start_point
  let step_y : Int := if direction.y ≥ 0 then 1 else -1
  let hyp : K := hypot direction.x direction.y
  let norm_direction : V2 K := ⟨direction.x / hyp, direction.y / hyp⟩
  let near_y : K :=
    if step_y ≥ 0 then
      (size_t_mul (size_t_of_int (start_cell.y + 1)) cell_size : K) - start_point.y
    else start_point.y - (size_t_mul (size_t_of_int start_cell.y) cell_size : K)
  if norm_direction.y ≠ 0 then near_y / norm_direction.y else (DBL_MAX : K)

/-- The local `dx` of `trace_line`. -/
def dx (hypot : K → K → K) (start_point end_point : V2 K) (cell_size : Nat) : K :=
  let direction := end_point.sub start_point
  let hyp : K := hypot direction.x direction.y
  let norm_direction : V2 K := ⟨direction.x / hyp, direction.y / hyp⟩
  if norm_direction.x ≠ 0 then (cell_size : K) / norm_direction.x else (DBL_MAX : K)

/-- The local `dy` of `trace_line`. -/
def dy (hypot : K → K → K) (start_point end_point : V2 K) (cell_size : Nat) : K :=
  let direction := end_point.sub start_point
  let hyp : K := hypot direction.x direction.y
  let norm_direction : V2 K := ⟨direction.x / hyp, direction.y / hyp⟩
  if norm_direction.y ≠ 0 then (cell_size : K) / norm_direction.y else (DBL_MAX : K)

end RayDefs

/-! ## The interior fill as the specification states it -/

/-- One iteration of the scan as the specification states it: on entering a new column
the cursor is reset to that cell's `y`; whenever the current cell's `y` exceeds the
cursor, every cell of the column with `y` from the cursor (inclusive) to the current
`y` (exclusive) is inserted into the to-add set; then the cursor is set to the current
`y + 1`. -/
def fill_step_spec (st : FillState) (it : V2i) : FillState :=
  let st1 : FillState :=
    if st.last_x ≠ it.x then ⟨it.x, it.y, st.to_add⟩ else st
  let to_add :=
    if it.y > st1.counter then
      fill_column it.x (it.y - st1.counter).toNat st1.counter st1.to_add
    else st1.to_add
  ⟨st1.last_x, it.y + 1, to_add⟩

/-- The interior fill as the specification states it: the scan `fill_step_spec` over the
outline in its order, the cursor starting at the `y` of the first cell, and the union
of the outline with the to-add set. -/
def inner_fill_spec (cells : List V2i) : Option (List V2i) :=
  match cells with
  | [] => none
  | c :: _ => some (add_to_set cells (cells.foldl fill_step_spec ⟨c.x, c.y, []⟩).to_add)

/-! ## The order `V2::operator<` and the set model -/

theorem V2.lt_irrefl (a : V2i) : ¬ V2.lt a a := by
  simp [V2.lt]

theorem V2.lt_trans {a b c : V2i} (hab : V2.lt a b) (hbc : V2.lt b c) : V2.lt a c := by
  unfold V2.lt at *
  split_ifs at * <;> omega

theorem V2.lt_asymm {a b : V2i} (hab : V2.lt a b) : ¬ V2.lt b a := by
  unfold V2.lt at *
  split_ifs at * <;> omega

/-- Two cells neither of which is less than the other are the same cell. -/
theorem V2.eq_of_not_lt {a b : V2i} (h1 : ¬ V2.lt a b) (h2 : ¬ V2.lt b a) : a = b := by
  obtain ⟨ax, ay⟩ := a
  obtain ⟨bx, bY⟩ := b
  unfold V2.lt at *
  simp only at h1 h2
  have hx : ax = bx := by split_ifs at * <;> omega
  have hy : ay = bY := by split_ifs at * <;> omega
  rw [hx, hy]

theorem mem_set_insert (a x : V2i) (l : List V2i) :
    x ∈ set_insert a l ↔ x = a ∨ x ∈ l := by
  induction l with
  | nil => simp [set_insert]
  | cons b l ih =>
    unfold set_insert
    by_cases h1 : V2.lt a b
    · simp [h1]
    · by_cases h2 : V2.lt b a
      · simp only [h1, h2, if_true, if_false, List.mem_cons, ih]
        tauto
      · have hab : a = b := V2.eq_of_not_lt h1 h2
        subst hab
        simp [h1]

theorem set_insert_sorted (a : V2i) (l : List V2i) (hl : l.Pairwise V2.lt) :
    (set_insert a l).Pairwise V2.lt := by
  induction l with
  | nil => simp [set_insert]
  | cons b l ih =>
    unfold set_insert
    by_cases h1 : V2.lt a b
    · simp only [h1, if_true]
      refine List.Pairwise.cons ?_ hl
      intro c hc
      rcases List.mem_cons.1 hc with rfl | hc
      · exact h1
      · exact V2.lt_trans h1 (List.rel_of_pairwise_cons hl hc)
    · by_cases h2 : V2.lt b a
      · simp only [h1, h2, if_true, if_false]
        refine List.Pairwise.cons ?_ (ih (List.Pairwise.of_cons hl))
        intro c hc
        rcases (mem_set_insert a c l).1 hc with rfl | hc
        · exact h2
        · exact List.rel_of_pairwise_cons hl hc
      · simpa [h1, h2] using hl

theorem length_set_insert_of_not_mem (a : V2i) (l : List V2i) (ha : a ∉ l) :
    (set_insert a l).length = l.length + 1 := by
  induction l with
  | nil => simp [set_insert]
  | cons b l ih =>
    unfold set_insert
    by_cases h1 : V2.lt a b
    · simp [h1]
    · by_cases h2 : V2.lt b a
      · have : a ∉ l := fun h => ha (List.mem_cons_of_mem _ h)
        simp [h1, h2, ih this]
      · exact absurd (V2.eq_of_not_lt h1 h2 ▸ List.mem_cons_self _ _) ha

theorem mem_add_to_set (x : V2i) (t s : List V2i) :
    x ∈ add_to_set s t ↔ x ∈ s ∨ x ∈ t := by
  unfold add_to_set
  induction t generalizing s with
  | nil => simp
  | cons c t ih =>
    simp only [List.foldl_cons, ih, mem_set_insert, List.mem_cons]
    tauto

theorem add_to_set_sorted (t s : List V2i) (hs : s.Pairwise V2.lt) :
    (add_to_set s t).Pairwise V2.lt := by
  unfold add_to_set
  induction t generalizing s with
  | nil => simpa using hs
  | cons c t ih => exact ih _ (set_insert_sorted c s hs)

/-- A set is determined by its elements: two strictly increasing lists with the same
members are equal. -/
theorem sorted_ext {l₁ l₂ : List V2i} (h₁ : l₁.Pairwise V2.lt) (h₂ : l₂.Pairwise V2.lt)
    (h : ∀ x, x ∈ l₁ ↔ x ∈ l₂) : l₁ = l₂ := by
  have nd : ∀ {l : List V2i}, l.Pairwise V2.lt → l.Nodup := fun hl =>
    List.Pairwise.imp (fun {a b} (hab : V2.lt a b) (hEq : a = b) =>
      V2.lt_irrefl b (hEq ▸ hab)) hl
  exact List.eq_of_perm_of_sorted ((List.perm_ext_iff_of_nodup (nd h₁) (nd h₂)).2 h) h₁ h₂

/-! ## The tracing loop -/

section LoopLemmas

variable {K : Type} [LinearOrderedField K]

/-- The loop only inserts: what was in `cells` stays in the result. -/
theorem subset_trace_loop (step_x step_y : Int) (dx dy : K) (n : Nat) (v h : K)
    (cur : V2i) (cells : List V2i) (c : V2i) (hc : c ∈ cells) :
    c ∈ trace_loop step_x step_y dx dy n v h cur cells := by
  induction n generalizing v h cur cells with
  | zero => simpa [trace_loop] using hc
  | succ n ih =>
    unfold trace_loop
    split_ifs
    · exact ih _ _ _ _ ((mem_set_insert _ _ _).2 (Or.inr hc))
    · exact ih _ _ _ _ ((mem_set_insert _ _ _).2 (Or.inr hc))

theorem trace_loop_sorted (step_x step_y : Int) (dx dy : K) (n : Nat) (v h : K)
    (cur : V2i) (cells : List V2i) (hs : cells.Pairwise V2.lt) :
    (trace_loop step_x step_y dx dy n v h cur cells).Pairwise V2.lt := by
  induction n generalizing v h cur cells with
  | zero => simpa [trace_loop] using hs
  | succ n ih =>
    unfold trace_loop
    split_ifs
    · exact ih _ _ _ _ (set_insert_sorted _ _ hs)
    · exact ih _ _ _ _ (set_insert_sorted _ _ hs)

/-- Every iteration inserts a cell that is not in the set yet: along the step
directions the current cell is strictly farther than every cell inserted before. -/
theorem trace_loop_length (step_x step_y : Int) (hx : step_x * step_x = 1)
    (hy : step_y * step_y = 1) (dx dy : K) (n : Nat) (v h : K) (cur : V2i)
    (cells : List V2i)
    (hinv : ∀ c ∈ cells, step_x * c.x + step_y * c.y ≤ step_x * cur.x + step_y * cur.y) :
    (trace_loop step_x step_y dx dy n v h cur cells).length = cells.length + n := by
  induction n generalizing v h cur cells with
  | zero => simp [trace_loop]
  | succ n ih =>
    unfold trace_loop
    split_ifs
    · have hnew : (⟨cur.x + step_x, cur.y⟩ : V2i) ∉ cells := by
        intro hm
        have := hinv _ hm
        simp only at this
        nlinarith
      rw [ih, length_set_insert_of_not_mem _ _ hnew]
      · omega
      · intro c hc
        rcases (mem_set_insert _ _ _).1 hc with rfl | hc
        · exact le_refl _
        · have := hinv c hc
          simp only
          nlinarith
    · have hnew : (⟨cur.x, cur.y + step_y⟩ : V2i) ∉ cells := by
        intro hm
        have := hinv _ hm
        simp only at this
        nlinarith
      rw [ih, length_set_insert_of_not_mem _ _ hnew]
      · omega
      · intro c hc
        rcases (mem_set_insert _ _ _).1 hc with rfl | hc
        · exact le_refl _
        · have := hinv c hc
          simp only
          nlinarith

end LoopLemmas

section TracerLemmas

variable {K : Type} [LinearOrderedField K] [FloorRing K]

theorem start_cell_mem_trace_line (hypot : K → K → K) (a b : V2 K) (s : Nat) :
    point_to_grid_fnc s a ∈ trace_line hypot a b s := by
  unfold trace_line
  exact subset_trace_loop _ _ _ _ _ _ _ _ _ _ (by simp [set_insert])

theorem trace_line_sorted (hypot : K → K → K) (a b : V2 K) (s : Nat) :
    (trace_line hypot a b s).Pairwise V2.lt := by
  unfold trace_line
  exact trace_loop_sorted _ _ _ _ _ _ _ _ _ (by simp [set_insert])

end TracerLemmas

/-! ## The edges of the closed polygon -/

section Edges

variable {P : Type}

theorem closed_edges_of_ne_nil (l : List P) (h : l ≠ []) :
    closed_edges l = l.zip l.tail ++ [(l.getLast h, l.head h)] := by
  cases l with
  | nil => exact absurd rfl h
  | cons p ps => rfl

theorem zip_tail_snoc (l : List P) (h : l ≠ []) (p : P) :
    (l ++ [p]).zip (l ++ [p]).tail = l.zip l.tail ++ [(l.getLast h, p)] := by
  induction l with
  | nil => exact absurd rfl h
  | cons q l ih =>
    cases l with
    | nil => rfl
    | cons r rs =>
      have := ih (List.cons_ne_nil r rs)
      simp only [List.cons_append, List.tail_cons, List.zip_cons_cons, List.getLast_cons_cons] at this ⊢
      rw [this]

/-- A consecutive pair of points is an edge. -/
theorem consecutive_mem_closed_edges (l : List P) (i : Nat) (p q : P)
    (hp : l[i]? = some p) (hq : l[i + 1]? = some q) : (p, q) ∈ closed_edges l := by
  cases l with
  | nil => simp at hp
  | cons a as =>
    unfold closed_edges
    apply List.mem_append_left
    have hz : ((a :: as).zip as)[i]? = some (p, q) := by
      rw [List.getElem?_zip_eq_some]
      exact ⟨hp, by simpa using hq⟩
    exact List.getElem?_mem hz

/-- The pair (last point, first point) is an edge. -/
theorem closing_mem_closed_edges (l : List P) (f b : P)
    (hf : l.head? = some f) (hb : l.getLast? = some b) : (b, f) ∈ closed_edges l := by
  cases l with
  | nil => simp at hf
  | cons a as =>
    unfold closed_edges
    apply List.mem_append_right
    simp only [List.head?_cons, Option.some.injEq] at hf
    rw [List.getLast?_eq_getLast _ (List.cons_ne_nil a as)] at hb
    simp only [Option.some.injEq] at hb
    subst hf hb
    simp

theorem closed_edges_ne_nil (l : List P) (h : l ≠ []) : closed_edges l ≠ [] := by
  rw [closed_edges_of_ne_nil l h]
  simp

/-- Rotating the point sequence by one rotates the edge list. -/
theorem closed_edges_rotate_one (l : List P) :
    closed_edges (l.rotate 1) = (closed_edges l).rotate 1 := by
  cases l with
  | nil => rfl
  | cons p ps =>
    cases ps with
    | nil => simp [closed_edges, List.rotate_cons_succ]
    | cons q qs =>
      have hne : q :: qs ≠ [] := List.cons_ne_nil q qs
      have h1 : (p :: q :: qs).rotate 1 = (q :: qs) ++ [p] := by simp [List.rotate_cons_succ]
      rw [h1, closed_edges_of_ne_nil _ (by simp), zip_tail_snoc _ hne]
      simp [closed_edges, List.rotate_cons_succ]

theorem mem_closed_edges_rotate (l : List P) (k : Nat) (e : P × P) :
    e ∈ closed_edges (l.rotate k) ↔ e ∈ closed_edges l := by
  induction k with
  | zero => simp
  | succ k ih =>
    rw [← List.rotate_rotate, closed_edges_rotate_one, List.mem_rotate, ih]

end Edges

/-! ## The outline -/

theorem mem_foldl_add_to_set (ls : List (List V2i)) (init : List V2i) (c : V2i) :
    c ∈ ls.foldl add_to_set init ↔ c ∈ init ∨ ∃ l ∈ ls, c ∈ l := by
  induction ls generalizing init with
  | nil => simp
  | cons l ls ih =>
    simp only [List.foldl_cons, ih, mem_add_to_set, List.mem_cons, exists_eq_or_imp]
    tauto

theorem foldl_add_to_set_sorted (ls : List (List V2i)) (init : List V2i)
    (h : init.Pairwise V2.lt) : (ls.foldl add_to_set init).Pairwise V2.lt := by
  induction ls generalizing init with
  | nil => simpa using h
  | cons l ls ih => exact ih _ (add_to_set_sorted l init h)

section OutlineLemmas

variable {K : Type} [LinearOrderedField K] [FloorRing K]

/-- The outline is the union of the traces of the edges. -/
theorem mem_outline (hypot : K → K → K) (points : List (V2 K)) (s : Nat) (c : V2i) :
    c ∈ outline hypot points s ↔
      ∃ e ∈ closed_edges points, c ∈ trace_line hypot e.1 e.2 s := by
  unfold outline
  rw [mem_foldl_add_to_set]
  simp only [List.not_mem_nil, List.mem_map, false_or]
  constructor
  · rintro ⟨l, ⟨e, he, rfl⟩, hc⟩
    exact ⟨e, he, hc⟩
  · rintro ⟨e, he, hc⟩
    exact ⟨_, ⟨e, he, rfl⟩, hc⟩

theorem outline_sorted (hypot : K → K → K) (points : List (V2 K)) (s : Nat) :
    (outline hypot points s).Pairwise V2.lt :=
  foldl_add_to_set_sorted _ _ List.Pairwise.nil

theorem outline_ne_nil (hypot : K → K → K) (points : List (V2 K)) (s : Nat)
    (h : points ≠ []) : outline hypot points s ≠ [] := by
  obtain ⟨e, he⟩ := List.exists_mem_of_ne_nil _ (closed_edges_ne_nil points h)
  have : point_to_grid_fnc s e.1 ∈ outline hypot points s :=
    (mem_outline hypot points s _).2 ⟨e, he, start_cell_mem_trace_line hypot e.1 e.2 s⟩
  exact List.ne_nil_of_mem this

theorem outline_rotate (hypot : K → K → K) (points : List (V2 K)) (s k : Nat) :
    outline hypot (points.rotate k) s = outline hypot points s := by
  apply sorted_ext (outline_sorted _ _ _) (outline_sorted _ _ _)
  intro c
  simp only [mem_outline, mem_closed_edges_rotate]

end OutlineLemmas

/-! ## The interior fill -/

theorem mem_fill_column (x : Int) (n : Nat) (i : Int) (t : List V2i) (c : V2i) :
    c ∈ fill_column x n i t ↔ c ∈ t ∨ (c.x = x ∧ i ≤ c.y ∧ c.y < i + n) := by
  induction n generalizing i t with
  | zero =>
    simp only [fill_column, Nat.cast_zero, add_zero]
    constructor
    · exact Or.inl
    · rintro (h | ⟨_, h1, h2⟩)
      · exact h
      · omega
  | succ n ih =>
    simp only [fill_column, ih, mem_set_insert, Nat.cast_succ]
    constructor
    · rintro ((rfl | h) | ⟨hx, h1, h2⟩)
      · exact Or.inr ⟨rfl, le_refl _, by simp only; omega⟩
      · exact Or.inl h
      · exact Or.inr ⟨hx, by omega, by omega⟩
    · rintro (h | ⟨hx, h1, h2⟩)
      · exact Or.inl (Or.inr h)
      · by_cases hi : c.y = i
        · refine Or.inl (Or.inl ?_)
          obtain ⟨cx, cy⟩ := c
          simp only at hx hi
          rw [hx, hi]
        · exact Or.inr ⟨hx, by omega, by omega⟩

/-- The fill returns a set when the outline has a first element, and keeps the outline. -/
theorem inner_fill_of_ne_nil (cells : List V2i) (h : cells ≠ []) :
    ∃ r, inner_fill cells = some r ∧ ∀ c ∈ cells, c ∈ r := by
  cases cells with
  | nil => exact absurd rfl h
  | cons c0 cs =>
    refine ⟨_, rfl, ?_⟩
    intro c hc
    exact (mem_add_to_set _ _ _).2 (Or.inl hc)

/-- One iteration of the scan keeps: some outline cell of the current column lies at
or below the cursor, and every cell put in `to_add` lies between two outline cells of
its column. -/
theorem fill_step_inv (cells : List V2i) (st : FillState) (it : V2i) (hit : it ∈ cells)
    (h0 : ∃ c0 ∈ cells, c0.x = st.last_x ∧ c0.y ≤ st.counter)
    (h1 : ∀ a ∈ st.to_add, ∃ lo hi : Int,
      (⟨a.x, lo⟩ : V2i) ∈ cells ∧ (⟨a.x, hi⟩ : V2i) ∈ cells ∧ lo ≤ a.y ∧ a.y ≤ hi) :
    (∃ c0 ∈ cells, c0.x = (fill_step st it).last_x ∧ c0.y ≤ (fill_step st it).counter) ∧
    ∀ a ∈ (fill_step st it).to_add, ∃ lo hi : Int,
      (⟨a.x, lo⟩ : V2i) ∈ cells ∧ (⟨a.x, hi⟩ : V2i) ∈ cells ∧ lo ≤ a.y ∧ a.y ≤ hi := by
  obtain ⟨c0, hc0, hx0, hy0⟩ := h0
  -- the state after the column test
  have key : ∀ st1 : FillState, st1.to_add = st.to_add →
      (∃ c1 ∈ cells, c1.x = it.x ∧ c1.y ≤ st1.counter) → st1.last_x = it.x →
      (∃ c0 ∈ cells, c0.x = st1.last_x ∧ c0.y ≤ st1.counter + 1) ∧
      ∀ a ∈ (if it.y > st1.counter then
          fill_column it.x (it.y - st1.counter).toNat st1.counter st1.to_add
        else st1.to_add), ∃ lo hi : Int,
        (⟨a.x, lo⟩ : V2i) ∈ cells ∧ (⟨a.x, hi⟩ : V2i) ∈ cells ∧ lo ≤ a.y ∧ a.y ≤ hi := by
    intro st1 hadd ⟨c1, hc1, hx1, hy1⟩ hlast
    refine ⟨⟨c1, hc1, by rw [hlast, hx1], by omega⟩, ?_⟩
    intro a ha
    split_ifs at ha with hgt
    · rcases (mem_fill_column _ _ _ _ _).1 ha with ha | ⟨hax, hlo, hhi⟩
      · exact h1 a (hadd ▸ ha)
      · refine ⟨c1.y, it.y, ?_, ?_, by omega, ?_⟩
        · have : (⟨a.x, c1.y⟩ : V2i) = c1 := by
            obtain ⟨c1x, c1y⟩ := c1
            simp only at hx1 ⊢
            rw [hax, hx1]
          rw [this]
          exact hc1
        · have : (⟨a.x, it.y⟩ : V2i) = it := by rw [hax]
          rw [this]
          exact hit
        · have : ((it.y - st1.counter).toNat : Int) = it.y - st1.counter :=
            Int.toNat_of_nonneg (by omega)
          omega
    · exact h1 a (hadd ▸ ha)
  unfold fill_step
  by_cases hne : st.last_x ≠ it.x
  · simp only [if_pos hne]
    exact key ⟨it.x, it.y, st.to_add⟩ rfl ⟨it, hit, rfl, le_refl _⟩ rfl
  · simp only [if_neg hne]
    have hEq : st.last_x = it.x := not_not.1 hne
    exact key st rfl ⟨c0, hc0, by rw [hx0, hEq], hy0⟩ hEq

theorem fill_foldl_inv (cells l : List V2i) (hl : ∀ c ∈ l, c ∈ cells) (st : FillState)
    (h0 : ∃ c0 ∈ cells, c0.x = st.last_x ∧ c0.y ≤ st.counter)
    (h1 : ∀ a ∈ st.to_add, ∃ lo hi : Int,
      (⟨a.x, lo⟩ : V2i) ∈ cells ∧ (⟨a.x, hi⟩ : V2i) ∈ cells ∧ lo ≤ a.y ∧ a.y ≤ hi) :
    ∀ a ∈ (l.foldl fill_step st).to_add, ∃ lo hi : Int,
      (⟨a.x, lo⟩ : V2i) ∈ cells ∧ (⟨a.x, hi⟩ : V2i) ∈ cells ∧ lo ≤ a.y ∧ a.y ≤ hi := by
  induction l generalizing st with
  | nil => simpa using h1
  | cons it l ih =>
    have hstep := fill_step_inv cells st it (hl it (List.mem_cons_self _ _)) h0 h1
    exact ih (fun c hc => hl c (List.mem_cons_of_mem _ hc)) _ hstep.1 hstep.2

/-! ## Facts used by several claims on `pick_cells` -/

section PickLemmas

variable {K : Type} [LinearOrderedField K] [FloorRing K]

/-- Past the guard, `pick_cells` returns a set and that set holds the whole outline. -/
theorem pick_cells_keeps_outline (hypot : K → K → K) (points : List (V2 K)) (s : Nat)
    (hn : 2 ≤ points.length) (hs : 0 < s) :
    ∃ r, pick_cells hypot points s = some r ∧ ∀ c ∈ outline hypot points s, c ∈ r := by
  have hguard : ¬ (points.length < 2 ∨ s ≤ 0) := by omega
  have hne : points ≠ [] := by
    intro h
    rw [h] at hn
    simp at hn
  unfold pick_cells
  rw [if_neg hguard]
  exact inner_fill_of_ne_nil _ (outline_ne_nil hypot points s hne)

end PickLemmas

/-! ## Evaluations at concrete segments -/

/-- The function `hypotQ` is exact at Pythagorean arguments. -/
theorem hypotQ_eq (x y r : ℚ) (hr : 0 ≤ r) (h : x * x + y * y = r * r) :
    hypotQ x y = r := by
  rw [hypotQ, h, Rat.sqrt_eq, abs_of_nonneg hr]

theorem size_t_mul_zero_one : size_t_mul (size_t_of_int 0) 1 = 0 := by decide

theorem size_t_mul_one_one : size_t_mul (size_t_of_int 1) 1 = 1 := by decide

theorem size_t_mul_two_one : size_t_mul (size_t_of_int 2) 1 = 2 := by decide

/-- The slanted edge of the second triangle (it meets no grid corner), upwards. -/
theorem trace_clear_ab :
    trace_line hypotQ ⟨1/2, 1/4⟩ ⟨5/4, 5/4⟩ 1 = [⟨0, 0⟩, ⟨1, 0⟩, ⟨1, 1⟩] := by
  have hh : hypotQ (3/4) (1) = 5/4 := hypotQ_eq _ _ _ (by norm_num) (by norm_num)
  simp only [trace_line, point_to_grid_fnc, V2.sub]
  norm_num [hh, size_t_mul_zero_one, size_t_mul_one_one, size_t_mul_two_one, DBL_MAX]
  norm_num [trace_loop, abs_div, abs_neg, Nat.abs_ofNat]
  decide

/-- The slanted edge of the second triangle, downwards. -/
theorem trace_clear_ba :
    trace_line hypotQ ⟨5/4, 5/4⟩ ⟨1/2, 1/4⟩ 1 = [⟨0, 0⟩, ⟨1, 0⟩, ⟨1, 1⟩] := by
  have hh : hypotQ (-(3/4)) (-1) = 5/4 := hypotQ_eq _ _ _ (by norm_num) (by norm_num)
  simp only [trace_line, point_to_grid_fnc, V2.sub]
  norm_num [hh, size_t_mul_zero_one, size_t_mul_one_one, size_t_mul_two_one, DBL_MAX]
  norm_num [trace_loop, abs_div, abs_neg, Nat.abs_ofNat]
  decide

/-- The vertical edge of the second triangle, downwards. -/
theorem trace_clear_bc :
    trace_line hypotQ ⟨5/4, 5/4⟩ ⟨5/4, 1/4⟩ 1 = [⟨1, 0⟩, ⟨1, 1⟩] := by
  have hh : hypotQ (0) (-1) = 1 := hypotQ_eq _ _ _ (by norm_num) (by norm_num)
  simp only [trace_line, point_to_grid_fnc, V2.sub]
  norm_num [hh, size_t_mul_zero_one, size_t_mul_one_one, size_t_mul_two_one, DBL_MAX]
  norm_num [trace_loop, abs_div, abs_neg, Nat.abs_ofNat]
  decide

/-- The vertical edge of the second triangle, upwards. -/
theorem trace_clear_cb :
    trace_line hypotQ ⟨5/4, 1/4⟩ ⟨5/4, 5/4⟩ 1 = [⟨1, 0⟩, ⟨1, 1⟩] := by
  have hh : hypotQ (0) (1) = 1 := hypotQ_eq _ _ _ (by norm_num) (by norm_num)
  simp only [trace_line, point_to_grid_fnc, V2.sub]
  norm_num [hh, size_t_mul_zero_one, size_t_mul_one_one, size_t_mul_two_one, DBL_MAX]
  norm_num [trace_loop, abs_div, abs_neg, Nat.abs_ofNat]
  decide

/-- The horizontal edge of the second triangle, leftwards. -/
theorem trace_clear_ca :
    trace_line hypotQ ⟨5/4, 1/4⟩ ⟨1/2, 1/4⟩ 1 = [⟨0, 0⟩, ⟨1, 0⟩] := by
  have hh : hypotQ (-(3/4)) (0) = 3/4 := hypotQ_eq _ _ _ (by norm_num) (by norm_num)
  simp only [trace_line, point_to_grid_fnc, V2.sub]
  norm_num [hh, size_t_mul_zero_one, size_t_mul_one_one, size_t_mul_two_one, DBL_MAX]
  norm_num [trace_loop, abs_div, abs_neg, Nat.abs_ofNat]
  decide

/-- The horizontal edge of the second triangle, rightwards. -/
theorem trace_clear_ac :
    trace_line hypotQ ⟨1/2, 1/4⟩ ⟨5/4, 1/4⟩ 1 = [⟨0, 0⟩, ⟨1, 0⟩] := by
  have hh : hypotQ (3/4) (0) = 3/4 := hypotQ_eq _ _ _ (by norm_num) (by norm_num)
  simp only [trace_line, point_to_grid_fnc, V2.sub]
  norm_num [hh, size_t_mul_zero_one, size_t_mul_one_one, size_t_mul_two_one, DBL_MAX]
  norm_num [trace_loop, abs_div, abs_neg, Nat.abs_ofNat]
  decide

/-- Every edge of the triangle `(1/2, 1/4), (5/4, 5/4), (5/4, 1/4)` has the same trace in
both directions. -/
theorem clear_triangle_symmetric :
    ∀ e ∈ closed_edges ([⟨1/2, 1/4⟩, ⟨5/4, 5/4⟩, ⟨5/4, 1/4⟩] : List (V2 ℚ)),
      trace_line hypotQ e.1 e.2 1 = trace_line hypotQ e.2 e.1 1 := by
  intro e he
  simp only [closed_edges, List.zip_cons_cons, List.zip_nil_right, List.getLast_cons_cons,
    List.getLast_singleton, List.cons_append, List.nil_append, List.mem_cons,
    List.mem_singleton, List.not_mem_nil, or_false] at he
  rcases he with rfl | rfl | rfl
  · rw [trace_clear_ab, trace_clear_ba]
  · rw [trace_clear_bc, trace_clear_cb]
  · rw [trace_clear_ca, trace_clear_ac]

/-! ## Claims on `trace_line` -/

/-- C1, at a segment with negative coordinates. The segment from `(-3/2, 1/2)` to
`(-3/4, 3/2)` with cell size 1 passes through the point `(-7/8, 4/3)` (at 5/6 of its
length), which lies inside the open square of the cell `(-1, 1)`; `trace_line` returns
the cells `(-2, 0), (-2, 1), (-2, 2)` and not that cell. -/
theorem trace_line_negative_coordinates_misses_cell :
    trace_line hypotQ ⟨-3/2, 1/2⟩ ⟨-3/4, 3/2⟩ 1 = [⟨-2, 0⟩, ⟨-2, 1⟩, ⟨-2, 2⟩] ∧
    (⟨-1, 1⟩ : V2i) ∉ trace_line hypotQ ⟨-3/2, 1/2⟩ ⟨-3/4, 3/2⟩ 1 ∧
    ((-1 : ℚ) * 1 < -3/2 + 5/6 * (-3/4 - -3/2) ∧
      -3/2 + 5/6 * (-3/4 - -3/2) < ((-1 : ℚ) + 1) * 1) ∧
    ((1 : ℚ) * 1 < 1/2 + 5/6 * (3/2 - 1/2) ∧
      1/2 + 5/6 * (3/2 - 1/2) < ((1 : ℚ) + 1) * 1) := by
  have hh : hypotQ (3/4) 1 = 5/4 := hypotQ_eq _ _ _ (by norm_num) (by norm_num)
  have e1 : size_t_mul (size_t_of_int (-1)) 1 = 18446744073709551615 := by decide
  have hval : trace_line hypotQ ⟨-3/2, 1/2⟩ ⟨-3/4, 3/2⟩ 1
      = [⟨-2, 0⟩, ⟨-2, 1⟩, ⟨-2, 2⟩] := by
    simp only [trace_line, point_to_grid_fnc, V2.sub]
    norm_num [hh, e1, size_t_mul_one_one]
    norm_num [trace_loop, abs_div, abs_neg, Nat.abs_ofNat]
    decide
  refine ⟨hval, ?_, by norm_num, by norm_num⟩
  rw [hval]
  decide

/-- C2, at a segment whose end point is a grid corner. From `(0, 4)` to `(3, 0)` with
cell size 1 the end cell is `(3, 0)`; the seventh and last iteration finds both ray
parameters equal to 5 and steps in `y`, so the set returned ends at `(2, -1)` and does
not contain the end cell. -/
theorem trace_line_end_on_corner_misses_last_cell :
    point_to_grid_fnc 1 (⟨3, 0⟩ : V2 ℚ) = ⟨3, 0⟩ ∧
    trace_line hypotQ ⟨0, 4⟩ ⟨3, 0⟩ 1 =
      [⟨0, 2⟩, ⟨0, 3⟩, ⟨0, 4⟩, ⟨1, 1⟩, ⟨1, 2⟩, ⟨2, -1⟩, ⟨2, 0⟩, ⟨2, 1⟩] ∧
    point_to_grid_fnc 1 (⟨3, 0⟩ : V2 ℚ) ∉ trace_line hypotQ ⟨0, 4⟩ ⟨3, 0⟩ 1 := by
  have hh : hypotQ 3 (-4) = 5 := hypotQ_eq _ _ _ (by norm_num) (by norm_num)
  have e1 : size_t_mul (size_t_of_int 4) 1 = 4 := by decide
  have hcell : point_to_grid_fnc 1 (⟨3, 0⟩ : V2 ℚ) = ⟨3, 0⟩ := by
    simp [point_to_grid_fnc]
  have hval : trace_line hypotQ ⟨0, 4⟩ ⟨3, 0⟩ 1 =
      [⟨0, 2⟩, ⟨0, 3⟩, ⟨0, 4⟩, ⟨1, 1⟩, ⟨1, 2⟩, ⟨2, -1⟩, ⟨2, 0⟩, ⟨2, 1⟩] := by
    simp only [trace_line, point_to_grid_fnc, V2.sub]
    norm_num [hh, e1, size_t_mul_one_one]
    norm_num [trace_loop, abs_div, abs_neg, Nat.abs_ofNat]
    decide
  refine ⟨hcell, hval, ?_⟩
  rw [hcell, hval]
  decide

section TraceClaims

variable {K : Type} [LinearOrderedField K] [FloorRing K]

/-- C3. The list returned by `trace_line` is a set (strictly increasing, so free of
duplicates) and the number of its cells is
`|last_cell.x - start_cell.x| + |last_cell.y - start_cell.y| + 1`, for every `hypot`,
every pair of points and every positive cell size: the count does not depend on the
length or direction of the segment nor on the values of the ray parameters. -/
theorem trace_line_card (hypot : K → K → K) (a b : V2 K) (s : Nat) (_hs : 0 < s) :
    (trace_line hypot a b s).Pairwise V2.lt ∧
    (trace_line hypot a b s).length =
      ((point_to_grid_fnc s b).x - (point_to_grid_fnc s a).x).natAbs +
      ((point_to_grid_fnc s b).y - (point_to_grid_fnc s a).y).natAbs + 1 := by
  refine ⟨trace_line_sorted hypot a b s, ?_⟩
  unfold trace_line
  simp only
  rw [trace_loop_length]
  · simp [set_insert]
    omega
  · split_ifs <;> norm_num
  · split_ifs <;> norm_num
  · intro c hc
    have hc' : c = point_to_grid_fnc s a := by simpa [set_insert] using hc
    rw [hc']

/-- C4. For every point `p`, every `hypot` and every positive cell size,
`trace_line(p, p, s)` is the one-element set holding the cell of `p`. The loop bound is
0, so the loop returns that set for every value of the step directions, of the ray
parameters and of their increments: the quotients by the zero length of the direction
never reach the result. -/
theorem trace_line_same_point (hypot : K → K → K) (p : V2 K) (s : Nat) (_hs : 0 < s) :
    trace_line hypot p p s = [point_to_grid_fnc s p] ∧
    ∀ (step_x step_y : Int) (dx dy v h : K),
      trace_loop step_x step_y dx dy
        (((point_to_grid_fnc s p).x - (point_to_grid_fnc s p).x).natAbs +
          ((point_to_grid_fnc s p).y - (point_to_grid_fnc s p).y).natAbs)
        v h (point_to_grid_fnc s p) (set_insert (point_to_grid_fnc s p) []) =
      [point_to_grid_fnc s p] := by
  constructor
  · unfold trace_line
    simp [trace_loop, set_insert]
  · intro step_x step_y dx dy v h
    simp [trace_loop, set_insert]

end TraceClaims

/-- C3, at the segment from `(1/2, 1/4)` to `(5/4, 5/4)` with cell size 1. -/
theorem trace_line_card_witness :
    0 < 1 ∧
    ((trace_line hypotQ ⟨1/2, 1/4⟩ ⟨5/4, 5/4⟩ 1).Pairwise V2.lt ∧
    (trace_line hypotQ ⟨1/2, 1/4⟩ ⟨5/4, 5/4⟩ 1).length =
      ((point_to_grid_fnc 1 (⟨5/4, 5/4⟩ : V2 ℚ)).x -
        (point_to_grid_fnc 1 (⟨1/2, 1/4⟩ : V2 ℚ)).x).natAbs +
      ((point_to_grid_fnc 1 (⟨5/4, 5/4⟩ : V2 ℚ)).y -
        (point_to_grid_fnc 1 (⟨1/2, 1/4⟩ : V2 ℚ)).y).natAbs + 1) :=
  ⟨by decide, trace_line_card hypotQ ⟨1/2, 1/4⟩ ⟨5/4, 5/4⟩ 1 (by decide)⟩

/-- C4, at the point `(7/2, -5/2)` with cell size 2. -/
theorem trace_line_same_point_witness :
    0 < 2 ∧
    trace_line hypotQ ⟨7/2, -5/2⟩ ⟨7/2, -5/2⟩ 2 = [point_to_grid_fnc 2 (⟨7/2, -5/2⟩ : V2 ℚ)] :=
  ⟨by decide, (trace_line_same_point hypotQ ⟨7/2, -5/2⟩ 2 (by decide)).1⟩

/-! ## Claims on `pick_cells` -/

section PickClaims

variable {K : Type} [LinearOrderedField K] [FloorRing K]

/-- C5. With fewer than 2 points, or with a cell size that is not positive (for the
unsigned `size_t` that is 0), `pick_cells` returns the empty set. -/
theorem pick_cells_short_circuit (hypot : K → K → K) (points : List (V2 K)) (s : Nat)
    (h : points.length < 2 ∨ s ≤ 0) : pick_cells hypot points s = some [] := by
  unfold pick_cells
  rw [if_pos h]

/-- C6. For at least 2 points and a positive cell size, `pick_cells` returns a set that
contains every cell of `trace_line(p_i, p_{i+1}, s)` for each consecutive pair of points
and every cell of the closing edge `trace_line(back, front, s)`. -/
theorem pick_cells_contains_edge_traces (hypot : K → K → K) (points : List (V2 K))
    (s : Nat) (hn : 2 ≤ points.length) (hs : 0 < s) :
    ∃ r, pick_cells hypot points s = some r ∧
      (∀ (i : Nat) (p q : V2 K), points[i]? = some p → points[i + 1]? = some q →
        ∀ c ∈ trace_line hypot p q s, c ∈ r) ∧
      (∀ front back : V2 K, points.head? = some front → points.getLast? = some back →
        ∀ c ∈ trace_line hypot back front s, c ∈ r) := by
  obtain ⟨r, hr, hsub⟩ := pick_cells_keeps_outline hypot points s hn hs
  refine ⟨r, hr, ?_, ?_⟩
  · intro i p q hp hq c hc
    exact hsub c ((mem_outline hypot points s c).2
      ⟨(p, q), consecutive_mem_closed_edges points i p q hp hq, hc⟩)
  · intro front back hf hb c hc
    exact hsub c ((mem_outline hypot points s c).2
      ⟨(back, front), closing_mem_closed_edges points front back hf hb, hc⟩)

/-- C7. `pick_cells` is invariant under cyclic rotation of the point sequence, for
every sequence (of any length), every rotation `k` and every cell size. -/
theorem pick_cells_rotate (hypot : K → K → K) (points : List (V2 K)) (s k : Nat) :
    pick_cells hypot (points.rotate k) s = pick_cells hypot points s := by
  unfold pick_cells
  rw [List.length_rotate, outline_rotate]

/-- C9. For at least 2 points and a positive cell size, the set returned by
`pick_cells` contains the outline set (the union of the traces of the edges): the
fill removes no outline cell. -/
theorem pick_cells_superset_outline (hypot : K → K → K) (points : List (V2 K))
    (s : Nat) (hn : 2 ≤ points.length) (hs : 0 < s) :
    ∃ r, pick_cells hypot points s = some r ∧
      (∀ c ∈ outline hypot points s, c ∈ r) ∧
      (∀ e ∈ closed_edges points, ∀ c ∈ trace_line hypot e.1 e.2 s,
        c ∈ outline hypot points s) := by
  obtain ⟨r, hr, hsub⟩ := pick_cells_keeps_outline hypot points s hn hs
  exact ⟨r, hr, hsub, fun e he c hc => (mem_outline hypot points s c).2 ⟨e, he, hc⟩⟩

end PickClaims

/-- C5, at a single point with cell size 10. -/
theorem pick_cells_short_circuit_witness :
    (([⟨1, 2⟩] : List (V2 ℚ)).length < 2 ∨ 10 ≤ 0) ∧
    pick_cells hypotQ [⟨1, 2⟩] 10 = some [] :=
  ⟨Or.inl (by decide), pick_cells_short_circuit hypotQ [⟨1, 2⟩] 10 (Or.inl (by decide))⟩

/-- C6, at the triangle `(5/8, 1/2), (11/8, 3/2), (11/8, 1/2)` with cell size 1. -/
theorem pick_cells_contains_edge_traces_witness :
    2 ≤ ([⟨5/8, 1/2⟩, ⟨11/8, 3/2⟩, ⟨11/8, 1/2⟩] : List (V2 ℚ)).length ∧ 0 < 1 ∧
    ∃ r, pick_cells hypotQ [⟨5/8, 1/2⟩, ⟨11/8, 3/2⟩, ⟨11/8, 1/2⟩] 1 = some r ∧
      (∀ (i : Nat) (p q : V2 ℚ),
        ([⟨5/8, 1/2⟩, ⟨11/8, 3/2⟩, ⟨11/8, 1/2⟩] : List (V2 ℚ))[i]? = some p →
        ([⟨5/8, 1/2⟩, ⟨11/8, 3/2⟩, ⟨11/8, 1/2⟩] : List (V2 ℚ))[i + 1]? = some q →
        ∀ c ∈ trace_line hypotQ p q 1, c ∈ r) ∧
      (∀ front back : V2 ℚ,
        ([⟨5/8, 1/2⟩, ⟨11/8, 3/2⟩, ⟨11/8, 1/2⟩] : List (V2 ℚ)).head? = some front →
        ([⟨5/8, 1/2⟩, ⟨11/8, 3/2⟩, ⟨11/8, 1/2⟩] : List (V2 ℚ)).getLast? = some back →
        ∀ c ∈ trace_line hypotQ back front 1, c ∈ r) :=
  ⟨by decide, by decide,
    pick_cells_contains_edge_traces hypotQ [⟨5/8, 1/2⟩, ⟨11/8, 3/2⟩, ⟨11/8, 1/2⟩] 1
      (by decide) (by decide)⟩

/-- C9, at the two-point sequence `(0, 4), (3, 0)` with cell size 1. -/
theorem pick_cells_superset_outline_witness :
    2 ≤ ([⟨0, 4⟩, ⟨3, 0⟩] : List (V2 ℚ)).length ∧ 0 < 1 ∧
    ∃ r, pick_cells hypotQ [⟨0, 4⟩, ⟨3, 0⟩] 1 = some r ∧
      (∀ c ∈ outline hypotQ [⟨0, 4⟩, ⟨3, 0⟩] 1, c ∈ r) ∧
      (∀ e ∈ closed_edges ([⟨0, 4⟩, ⟨3, 0⟩] : List (V2 ℚ)),
        ∀ c ∈ trace_line hypotQ e.1 e.2 1, c ∈ outline hypotQ [⟨0, 4⟩, ⟨3, 0⟩] 1) :=
  ⟨by decide, by decide,
    pick_cells_superset_outline hypotQ [⟨0, 4⟩, ⟨3, 0⟩] 1 (by decide) (by decide)⟩

/-- C10. For every non-empty outline set the fill returns a set, and every cell
`(x, y)` of it lies within the outline's extent in its column: the outline has cells
`(x, y_lo)` and `(x, y_hi)` with `y_lo ≤ y ≤ y_hi`. -/
theorem inner_fill_within_column_extent (cells : List V2i) (h : cells ≠ []) :
    ∃ r, inner_fill cells = some r ∧
      ∀ c ∈ r, ∃ y_lo y_hi : Int,
        (⟨c.x, y_lo⟩ : V2i) ∈ cells ∧ (⟨c.x, y_hi⟩ : V2i) ∈ cells ∧
        y_lo ≤ c.y ∧ c.y ≤ y_hi := by
  cases cells with
  | nil => exact absurd rfl h
  | cons c0 cs =>
    refine ⟨_, rfl, ?_⟩
    intro c hc
    rcases (mem_add_to_set _ _ _).1 hc with hc | hc
    · exact ⟨c.y, c.y, hc, hc, le_refl _, le_refl _⟩
    · exact fill_foldl_inv (c0 :: cs) (c0 :: cs) (fun _ h => h) ⟨c0.x, c0.y, []⟩
        ⟨c0, List.mem_cons_self _ _, rfl, le_refl _⟩ (by simp) c hc

/-- C10, at the outline `(0, 0), (0, 3), (1, 1)`. -/
theorem inner_fill_within_column_extent_witness :
    ([⟨0, 0⟩, ⟨0, 3⟩, ⟨1, 1⟩] : List V2i) ≠ [] ∧
    ∃ r, inner_fill [⟨0, 0⟩, ⟨0, 3⟩, ⟨1, 1⟩] = some r ∧
      ∀ c ∈ r, ∃ y_lo y_hi : Int,
        (⟨c.x, y_lo⟩ : V2i) ∈ ([⟨0, 0⟩, ⟨0, 3⟩, ⟨1, 1⟩] : List V2i) ∧
        (⟨c.x, y_hi⟩ : V2i) ∈ ([⟨0, 0⟩, ⟨0, 3⟩, ⟨1, 1⟩] : List V2i) ∧
        y_lo ≤ c.y ∧ c.y ≤ y_hi :=
  ⟨by decide, inner_fill_within_column_extent [⟨0, 0⟩, ⟨0, 3⟩, ⟨1, 1⟩] (by decide)⟩

/-! ## The scan of the interior fill on a set -/

theorem V2.lt_iff (a b : V2i) : V2.lt a b ↔ a.x < b.x ∨ (a.x = b.x ∧ a.y < b.y) := by
  unfold V2.lt
  split_ifs with h
  · constructor
    · intro hy
      exact Or.inr ⟨h, hy⟩
    · rintro (hx | ⟨_, hy⟩)
      · omega
      · exact hy
  · constructor
    · exact Or.inl
    · rintro (hx | ⟨hx, _⟩)
      · exact hx
      · exact absurd hx h

theorem fill_step_last_x (st : FillState) (it : V2i) : (fill_step st it).last_x = it.x := by
  unfold fill_step
  by_cases hne : st.last_x ≠ it.x
  · simp only [if_pos hne]
  · simp only [if_neg hne]
    exact not_not.1 hne

theorem fill_step_counter_le (st : FillState) (it : V2i)
    (h : st.last_x = it.x → st.counter ≤ it.y) : (fill_step st it).counter ≤ it.y + 1 := by
  unfold fill_step
  by_cases hne : st.last_x ≠ it.x
  · simp only [if_pos hne]
    omega
  · simp only [if_neg hne]
    have := h (not_not.1 hne)
    omega

theorem fill_step_to_add_subset (st : FillState) (it c : V2i) (h : c ∈ st.to_add) :
    c ∈ (fill_step st it).to_add := by
  unfold fill_step
  by_cases hne : st.last_x ≠ it.x
  · simp only [if_pos hne]
    split_ifs
    · exact (mem_fill_column _ _ _ _ _).2 (Or.inl h)
    · exact h
  · simp only [if_neg hne]
    split_ifs
    · exact (mem_fill_column _ _ _ _ _).2 (Or.inl h)
    · exact h

theorem fill_foldl_to_add_subset (l : List V2i) (st : FillState) (c : V2i)
    (h : c ∈ st.to_add) : c ∈ (l.foldl fill_step st).to_add := by
  induction l generalizing st with
  | nil => simpa using h
  | cons it l ih => exact ih _ (fill_step_to_add_subset st it c h)

/-- Within the current column, the iteration at `it` inserts every `y` from the cursor
up to `it.y` (exclusive). -/
theorem fill_step_fills (st : FillState) (it : V2i) (y : Int) (hx : st.last_x = it.x)
    (h1 : st.counter ≤ y) (h2 : y < it.y) :
    (⟨it.x, y⟩ : V2i) ∈ (fill_step st it).to_add := by
  unfold fill_step
  have hne : ¬ st.last_x ≠ it.x := not_not.2 hx
  simp only [if_neg hne]
  have hgt : it.y > st.counter := by omega
  rw [if_pos hgt]
  refine (mem_fill_column _ _ _ _ _).2 (Or.inr ⟨rfl, h1, ?_⟩)
  have : ((it.y - st.counter).toNat : Int) = it.y - st.counter :=
    Int.toNat_of_nonneg (by omega)
  simp only
  omega

/-- The rest of the current column: with the cursor at or below `y` and at or below
every cell left in the column, a cell `b` of the column above `y` makes the scan
insert `(last_x, y)` unless `(last_x, y)` is itself a cell left to scan. -/
theorem fill_foldl_gap_current (l : List V2i) (hs : l.Pairwise V2.lt) (st : FillState)
    (hx : ∀ c ∈ l, st.last_x ≤ c.x)
    (hc : ∀ c ∈ l, c.x = st.last_x → st.counter ≤ c.y)
    (y : Int) (hy : st.counter ≤ y) (b : V2i) (hb : b ∈ l) (hbx : b.x = st.last_x)
    (hby : y < b.y) :
    (⟨st.last_x, y⟩ : V2i) ∈ (l.foldl fill_step st).to_add ∨
      (⟨st.last_x, y⟩ : V2i) ∈ l := by
  induction l generalizing st with
  | nil => simp at hb
  | cons it rest ih =>
    have hrest := List.Pairwise.of_cons hs
    have hlt : ∀ c ∈ rest, V2.lt it c := fun c hc => List.rel_of_pairwise_cons hs hc
    have hitx : it.x = st.last_x := by
      rcases List.mem_cons.1 hb with rfl | hb'
      · exact hbx
      · have h1 := hx it (List.mem_cons_self _ _)
        have h2 := (V2.lt_iff it b).1 (hlt b hb')
        omega
    rcases lt_trichotomy y it.y with hlt_y | heq | hgt
    · left
      simp only [List.foldl_cons]
      apply fill_foldl_to_add_subset
      have := fill_step_fills st it y hitx.symm hy hlt_y
      rwa [hitx] at this
    · right
      have : (⟨st.last_x, y⟩ : V2i) = it := by
        obtain ⟨ix, iy⟩ := it
        simp only at hitx heq
        rw [hitx, heq]
      rw [this]
      exact List.mem_cons_self _ _
    · have hb' : b ∈ rest := by
        rcases List.mem_cons.1 hb with rfl | hb'
        · omega
        · exact hb'
      have hlast := fill_step_last_x st it
      have hcnt := fill_step_counter_le st it
        (fun _ => hc it (List.mem_cons_self _ _) hitx)
      have key := ih hrest (fill_step st it)
        (fun c hc' => by
          have := (V2.lt_iff it c).1 (hlt c hc')
          rw [hlast]
          omega)
        (fun c hc' hcx => by
          have := (V2.lt_iff it c).1 (hlt c hc')
          rw [hlast] at hcx
          omega)
        (by omega) hb' (by rw [hlast, hbx, hitx]) 
      simp only [List.foldl_cons]
      rw [hlast, hitx] at key
      rcases key with h | h
      · exact Or.inl h
      · exact Or.inr (List.mem_cons_of_mem _ h)

/-- The scan leaves no gap between two cells of a column. -/
theorem fill_foldl_gap (l : List V2i) (hs : l.Pairwise V2.lt) (st : FillState)
    (hc : ∀ c ∈ l, c.x = st.last_x → st.counter ≤ c.y)
    (a b : V2i) (ha : a ∈ l) (hb : b ∈ l) (hab : a.x = b.x) (y : Int)
    (h1 : a.y < y) (h2 : y < b.y) :
    (⟨a.x, y⟩ : V2i) ∈ (l.foldl fill_step st).to_add ∨ (⟨a.x, y⟩ : V2i) ∈ l := by
  induction l generalizing st with
  | nil => simp at ha
  | cons it rest ih =>
    have hrest := List.Pairwise.of_cons hs
    have hlt : ∀ c ∈ rest, V2.lt it c := fun c hc => List.rel_of_pairwise_cons hs hc
    have hlast := fill_step_last_x st it
    have hcnt := fill_step_counter_le st it (hc it (List.mem_cons_self _ _) ·.symm)
    have hb' : b ∈ rest := by
      rcases List.mem_cons.1 hb with rfl | hb'
      · rcases List.mem_cons.1 ha with rfl | ha'
        · omega
        · have := (V2.lt_iff b a).1 (hlt a ha')
          omega
      · exact hb'
    have hc' : ∀ c ∈ rest, c.x = (fill_step st it).last_x → (fill_step st it).counter ≤ c.y := by
      intro c hcr hcx
      have := (V2.lt_iff it c).1 (hlt c hcr)
      rw [hlast] at hcx
      omega
    simp only [List.foldl_cons]
    rcases List.mem_cons.1 ha with rfl | ha'
    · have key := fill_foldl_gap_current rest hrest (fill_step st a)
        (fun c hc'' => by
          have := (V2.lt_iff a c).1 (hlt c hc'')
          rw [hlast]
          omega)
        hc' y (by omega) b hb' (by rw [hlast, hab]) h2
      rw [hlast] at key
      rcases key with h | h
      · exact Or.inl h
      · exact Or.inr (List.mem_cons_of_mem _ h)
    · rcases ih hrest (fill_step st it) hc' ha' hb' with h | h
      · exact Or.inl h
      · exact Or.inr (List.mem_cons_of_mem _ h)

/-- On a set (a strictly increasing list) with a first element the fill returns a set,
whose cells are exactly those lying between two outline cells of their column. -/
theorem inner_fill_char (cells : List V2i) (hs : cells.Pairwise V2.lt) (h : cells ≠ []) :
    ∃ r, inner_fill cells = some r ∧ r.Pairwise V2.lt ∧
      ∀ c : V2i, c ∈ r ↔ ∃ y_lo y_hi : Int,
        (⟨c.x, y_lo⟩ : V2i) ∈ cells ∧ (⟨c.x, y_hi⟩ : V2i) ∈ cells ∧
        y_lo ≤ c.y ∧ c.y ≤ y_hi := by
  cases cells with
  | nil => exact absurd rfl h
  | cons c0 cs =>
    refine ⟨_, rfl, add_to_set_sorted _ _ hs, ?_⟩
    intro c
    constructor
    · intro hc
      rcases (mem_add_to_set _ _ _).1 hc with hc | hc
      · exact ⟨c.y, c.y, hc, hc, le_refl _, le_refl _⟩
      · exact fill_foldl_inv (c0 :: cs) (c0 :: cs) (fun _ h => h) ⟨c0.x, c0.y, []⟩
          ⟨c0, List.mem_cons_self _ _, rfl, le_refl _⟩ (by simp) c hc
    · rintro ⟨lo, hi, hlo, hhi, h1, h2⟩
      rw [mem_add_to_set]
      by_cases e1 : lo = c.y
      · left
        rw [e1] at hlo
        exact hlo
      by_cases e2 : c.y = hi
      · left
        rw [← e2] at hhi
        exact hhi
      have hinit : ∀ d ∈ c0 :: cs, d.x = c0.x → c0.y ≤ d.y := by
        intro d hd hdx
        rcases List.mem_cons.1 hd with rfl | hd
        · exact le_refl _
        · have := (V2.lt_iff c0 d).1 (List.rel_of_pairwise_cons hs hd)
          omega
      have key := fill_foldl_gap (c0 :: cs) hs ⟨c0.x, c0.y, []⟩ hinit
        ⟨c.x, lo⟩ ⟨c.x, hi⟩ hlo hhi rfl c.y (by simp only; omega) (by simp only; omega)
      rcases key with hk | hk
      · exact Or.inr hk
      · exact Or.inl hk

/-- C17. For every non-empty outline set the fill returns a set with no gap in any
column: for two outline cells `(x, y1)`, `(x, y2)` and `y1 < y < y2`, the cell `(x, y)`
is in the result, however many outline cells the column holds. -/
theorem inner_fill_no_gap (cells : List V2i) (hs : cells.Pairwise V2.lt)
    (h : cells ≠ []) :
    ∃ r, inner_fill cells = some r ∧
      ∀ x y1 y2 y : Int, (⟨x, y1⟩ : V2i) ∈ cells → (⟨x, y2⟩ : V2i) ∈ cells →
        y1 < y → y < y2 → (⟨x, y⟩ : V2i) ∈ r := by
  obtain ⟨r, hr, _, hchar⟩ := inner_fill_char cells hs h
  refine ⟨r, hr, ?_⟩
  intro x y1 y2 y h1 h2 hlo hhi
  exact (hchar ⟨x, y⟩).2 ⟨y1, y2, h1, h2, le_of_lt hlo, le_of_lt hhi⟩

/-- C11. The fill is idempotent: for every non-empty cell set `S` the fill returns a
set `fill(S)`, and the fill applied to `fill(S)` returns `fill(S)` again. -/
theorem inner_fill_idempotent (cells : List V2i) (hs : cells.Pairwise V2.lt)
    (h : cells ≠ []) :
    ∃ r, inner_fill cells = some r ∧ inner_fill r = some r := by
  obtain ⟨r, hr, hrs, hchar⟩ := inner_fill_char cells hs h
  have hsub : ∀ c ∈ cells, c ∈ r := fun c hc =>
    (hchar c).2 ⟨c.y, c.y, hc, hc, le_refl _, le_refl _⟩
  have hrne : r ≠ [] := by
    obtain ⟨c, hc⟩ := List.exists_mem_of_ne_nil _ h
    exact List.ne_nil_of_mem (hsub c hc)
  obtain ⟨r2, hr2, hr2s, hchar2⟩ := inner_fill_char r hrs hrne
  refine ⟨r, hr, ?_⟩
  rw [hr2]
  congr 1
  apply sorted_ext hr2s hrs
  intro c
  rw [hchar2]
  constructor
  · rintro ⟨lo, hi, hlo, hhi, h1, h2⟩
    obtain ⟨lo1, _, hlo1, _, hl, _⟩ := (hchar _).1 hlo
    obtain ⟨_, hi2, _, hhi2, _, hu⟩ := (hchar _).1 hhi
    simp only at hlo1 hhi2 hl hu
    exact (hchar c).2 ⟨lo1, hi2, hlo1, hhi2, by omega, by omega⟩
  · intro hc
    exact ⟨c.y, c.y, hc, hc, le_refl _, le_refl _⟩

/-! ## The scan of the specification -/

theorem mem_fill_step_to_add (st : FillState) (it c : V2i) :
    c ∈ (fill_step st it).to_add ↔
      c ∈ st.to_add ∨ (st.last_x = it.x ∧ c.x = it.x ∧ st.counter ≤ c.y ∧ c.y < it.y) := by
  unfold fill_step
  by_cases hne : st.last_x ≠ it.x
  · simp only [if_pos hne, gt_iff_lt, lt_self_iff_false, if_false]
    constructor
    · exact Or.inl
    · rintro (h | ⟨h, _⟩)
      · exact h
      · exact absurd h hne
  · simp only [if_neg hne]
    have hx : st.last_x = it.x := not_not.1 hne
    by_cases hgt : it.y > st.counter
    · rw [if_pos hgt, mem_fill_column]
      have : ((it.y - st.counter).toNat : Int) = it.y - st.counter :=
        Int.toNat_of_nonneg (by omega)
      constructor
      · rintro (h | ⟨h1, h2, h3⟩)
        · exact Or.inl h
        · exact Or.inr ⟨hx, h1, h2, by omega⟩
      · rintro (h | ⟨_, h1, h2, h3⟩)
        · exact Or.inl h
        · exact Or.inr ⟨h1, h2, by omega⟩
    · rw [if_neg hgt]
      constructor
      · exact Or.inl
      · rintro (h | ⟨_, _, h2, h3⟩)
        · exact h
        · omega

theorem mem_fill_step_spec_to_add (st : FillState) (it c : V2i) :
    c ∈ (fill_step_spec st it).to_add ↔
      c ∈ st.to_add ∨ (st.last_x = it.x ∧ c.x = it.x ∧ st.counter ≤ c.y ∧ c.y < it.y) := by
  unfold fill_step_spec
  by_cases hne : st.last_x ≠ it.x
  · simp only [if_pos hne, gt_iff_lt, lt_self_iff_false, if_false]
    constructor
    · exact Or.inl
    · rintro (h | ⟨h, _⟩)
      · exact h
      · exact absurd h hne
  · simp only [if_neg hne]
    have hx : st.last_x = it.x := not_not.1 hne
    by_cases hgt : it.y > st.counter
    · rw [if_pos hgt, mem_fill_column]
      have : ((it.y - st.counter).toNat : Int) = it.y - st.counter :=
        Int.toNat_of_nonneg (by omega)
      constructor
      · rintro (h | ⟨h1, h2, h3⟩)
        · exact Or.inl h
        · exact Or.inr ⟨hx, h1, h2, by omega⟩
      · rintro (h | ⟨_, h1, h2, h3⟩)
        · exact Or.inl h
        · exact Or.inr ⟨h1, h2, by omega⟩
    · rw [if_neg hgt]
      constructor
      · exact Or.inl
      · rintro (h | ⟨_, _, h2, h3⟩)
        · exact h
        · omega

theorem fill_step_counter (st : FillState) (it : V2i) :
    (fill_step st it).counter = (if st.last_x ≠ it.x then it.y else st.counter) + 1 := by
  unfold fill_step
  by_cases hne : st.last_x ≠ it.x
  · simp only [if_pos hne]
  · simp only [if_neg hne]

theorem fill_step_spec_counter (st : FillState) (it : V2i) :
    (fill_step_spec st it).counter = it.y + 1 := by
  unfold fill_step_spec
  rfl

theorem fill_step_spec_last_x (st : FillState) (it : V2i) :
    (fill_step_spec st it).last_x = it.x := by
  unfold fill_step_spec
  by_cases hne : st.last_x ≠ it.x
  · simp only [if_pos hne]
  · simp only [if_neg hne]
    exact not_not.1 hne

/-- One iteration keeps the two scans in step: same column, the cursor of the code at
or below the cursor of the specification, every `y` of the column between the two
cursors already in the specification's to-add set or in the outline, and the two
to-add sets equal up to outline cells. -/
theorem fill_sim_step (cells : List V2i) (sc ss : FillState) (it : V2i) (hit : it ∈ cells)
    (i1 : sc.last_x = ss.last_x) (i2 : sc.counter ≤ ss.counter)
    (i3 : ∀ y : Int, sc.counter ≤ y → y < ss.counter →
      (⟨sc.last_x, y⟩ : V2i) ∈ ss.to_add ∨ (⟨sc.last_x, y⟩ : V2i) ∈ cells)
    (i4 : ∀ c ∈ sc.to_add, c ∈ ss.to_add ∨ c ∈ cells)
    (i5 : ∀ c ∈ ss.to_add, c ∈ sc.to_add)
    (hcnt : sc.last_x = it.x → sc.counter ≤ it.y) :
    (fill_step sc it).last_x = (fill_step_spec ss it).last_x ∧
    (fill_step sc it).counter ≤ (fill_step_spec ss it).counter ∧
    (∀ y : Int, (fill_step sc it).counter ≤ y → y < (fill_step_spec ss it).counter →
      (⟨(fill_step sc it).last_x, y⟩ : V2i) ∈ (fill_step_spec ss it).to_add ∨
      (⟨(fill_step sc it).last_x, y⟩ : V2i) ∈ cells) ∧
    (∀ c ∈ (fill_step sc it).to_add, c ∈ (fill_step_spec ss it).to_add ∨ c ∈ cells) ∧
    (∀ c ∈ (fill_step_spec ss it).to_add, c ∈ (fill_step sc it).to_add) := by
  have hcc := fill_step_counter sc it
  have hcs := fill_step_spec_counter ss it
  have hlc := fill_step_last_x sc it
  have hls := fill_step_spec_last_x ss it
  have hle := fill_step_counter_le sc it hcnt
  refine ⟨by rw [hlc, hls], by rw [hcs]; exact hle, ?_, ?_, ?_⟩
  · intro y hy1 hy2
    rw [hlc, mem_fill_step_spec_to_add]
    rw [hcs] at hy2
    by_cases hne : sc.last_x ≠ it.x
    · rw [hcc, if_pos hne] at hy1
      omega
    · rw [hcc, if_neg hne] at hy1
      have hx : sc.last_x = it.x := not_not.1 hne
      by_cases hy : y = it.y
      · right
        have : (⟨it.x, y⟩ : V2i) = it := by rw [hy]
        rw [this]
        exact hit
      · by_cases hys : y < ss.counter
        · have := i3 y (by omega) hys
          rw [hx] at this
          rcases this with h | h
          · exact Or.inl (Or.inl h)
          · exact Or.inr h
        · exact Or.inl (Or.inr ⟨by rw [← i1, hx], rfl, by simp only; omega,
            by simp only; omega⟩)
  · intro c hc
    rw [mem_fill_step_to_add] at hc
    rw [mem_fill_step_spec_to_add]
    rcases hc with hc | ⟨hx, hcx, h1, h2⟩
    · rcases i4 c hc with h | h
      · exact Or.inl (Or.inl h)
      · exact Or.inr h
    · by_cases hys : c.y < ss.counter
      · have := i3 c.y h1 hys
        have hc' : (⟨sc.last_x, c.y⟩ : V2i) = c := by
          obtain ⟨cx, cy⟩ := c
          simp only at hcx ⊢
          rw [hx, hcx]
        rw [hc'] at this
        rcases this with h | h
        · exact Or.inl (Or.inl h)
        · exact Or.inr h
      · exact Or.inl (Or.inr ⟨by rw [← i1, hx], hcx, by omega, h2⟩)
  · intro c hc
    rw [mem_fill_step_spec_to_add] at hc
    rw [mem_fill_step_to_add]
    rcases hc with hc | ⟨hx, hcx, h1, h2⟩
    · exact Or.inl (i5 c hc)
    · exact Or.inr ⟨by rw [i1, hx], hcx, by omega, h2⟩

/-- Over a set the two scans end with to-add sets that are equal up to outline cells. -/
theorem fill_sim (cells l : List V2i) (hs : l.Pairwise V2.lt) (hl : ∀ c ∈ l, c ∈ cells)
    (sc ss : FillState)
    (i1 : sc.last_x = ss.last_x) (i2 : sc.counter ≤ ss.counter)
    (i3 : ∀ y : Int, sc.counter ≤ y → y < ss.counter →
      (⟨sc.last_x, y⟩ : V2i) ∈ ss.to_add ∨ (⟨sc.last_x, y⟩ : V2i) ∈ cells)
    (i4 : ∀ c ∈ sc.to_add, c ∈ ss.to_add ∨ c ∈ cells)
    (i5 : ∀ c ∈ ss.to_add, c ∈ sc.to_add)
    (i6 : ∀ c ∈ l, c.x = sc.last_x → sc.counter ≤ c.y) :
    (∀ c ∈ (l.foldl fill_step sc).to_add,
      c ∈ (l.foldl fill_step_spec ss).to_add ∨ c ∈ cells) ∧
    (∀ c ∈ (l.foldl fill_step_spec ss).to_add, c ∈ (l.foldl fill_step sc).to_add) := by
  induction l generalizing sc ss with
  | nil => exact ⟨by simpa using i4, by simpa using i5⟩
  | cons it rest ih =>
    have hcnt : sc.last_x = it.x → sc.counter ≤ it.y :=
      fun hx => i6 it (List.mem_cons_self _ _) hx.symm
    obtain ⟨j1, j2, j3, j4, j5⟩ :=
      fill_sim_step cells sc ss it (hl it (List.mem_cons_self _ _)) i1 i2 i3 i4 i5 hcnt
    simp only [List.foldl_cons]
    refine ih (List.Pairwise.of_cons hs) (fun c hc => hl c (List.mem_cons_of_mem _ hc))
      _ _ j1 j2 j3 j4 j5 ?_
    intro c hc hcx
    have hlt := (V2.lt_iff it c).1 (List.rel_of_pairwise_cons hs hc)
    have hle := fill_step_counter_le sc it hcnt
    rw [fill_step_last_x] at hcx
    omega

/-- C15. On every non-empty outline set the fill of `pick_cells` (cursor update
`++counter`) returns the same set as the scan of the specification (cursor set to the
current `y + 1`); the specified scan inserts nothing the implemented one does not
insert, and the two insert the same cells outside the outline. -/
theorem inner_fill_refines_spec (cells : List V2i) (hs : cells.Pairwise V2.lt)
    (h : cells ≠ []) :
    (∃ r, inner_fill cells = some r ∧ inner_fill_spec cells = some r) ∧
    ∀ c0 : V2i, cells.head? = some c0 →
      (∀ c ∈ (cells.foldl fill_step_spec ⟨c0.x, c0.y, []⟩).to_add,
        c ∈ (cells.foldl fill_step ⟨c0.x, c0.y, []⟩).to_add) ∧
      (∀ c ∈ (cells.foldl fill_step ⟨c0.x, c0.y, []⟩).to_add,
        c ∈ (cells.foldl fill_step_spec ⟨c0.x, c0.y, []⟩).to_add ∨ c ∈ cells) := by
  cases cells with
  | nil => exact absurd rfl h
  | cons c0 cs =>
    have hinit : ∀ d ∈ c0 :: cs, d.x = c0.x → c0.y ≤ d.y := by
      intro d hd hdx
      rcases List.mem_cons.1 hd with rfl | hd
      · exact le_refl _
      · have := (V2.lt_iff c0 d).1 (List.rel_of_pairwise_cons hs hd)
        omega
    have key := fill_sim (c0 :: cs) (c0 :: cs) hs (fun _ hc => hc)
      ⟨c0.x, c0.y, []⟩ ⟨c0.x, c0.y, []⟩ rfl (le_refl _)
      (fun y h1 h2 => by simp only at h1 h2; omega) (by simp) (by simp) hinit
    constructor
    · refine ⟨_, rfl, ?_⟩
      unfold inner_fill_spec
      simp only [Option.some.injEq]
      apply sorted_ext (add_to_set_sorted _ _ hs) (add_to_set_sorted _ _ hs)
      intro c
      rw [mem_add_to_set, mem_add_to_set]
      constructor
      · rintro (hc | hc)
        · exact Or.inl hc
        · exact Or.inr (key.2 c hc)
      · rintro (hc | hc)
        · exact Or.inl hc
        · rcases key.1 c hc with hc | hc
          · exact Or.inr hc
          · exact Or.inl hc
    · intro d hd
      simp only [List.head?_cons, Option.some.injEq] at hd
      subst hd
      exact ⟨key.2, key.1⟩

/-! ## The value of `hypot` -/

section Scale

variable {K : Type} [LinearOrderedField K]

/-- The loop compares the two ray parameters only: a common positive factor on the ray
parameters and their increments does not change its result. -/
theorem trace_loop_scale (c : K) (hc : 0 < c) (step_x step_y : Int) (dx dy : K) (n : Nat)
    (v h : K) (cur : V2i) (cells : List V2i) :
    trace_loop step_x step_y (c * dx) (c * dy) n (c * v) (c * h) cur cells =
      trace_loop step_x step_y dx dy n v h cur cells := by
  induction n generalizing v h cur cells with
  | zero => simp [trace_loop]
  | succ n ih =>
    unfold trace_loop
    have hiff : |c * v| < |c * h| ↔ |v| < |h| := by
      rw [abs_mul, abs_mul, abs_of_pos hc]
      exact mul_lt_mul_left hc
    by_cases hlt : |v| < |h|
    · rw [if_pos hlt, if_pos (hiff.2 hlt), ← mul_add, ih]
    · rw [if_neg hlt, if_neg (fun h' => hlt (hiff.1 h')), ← mul_add, ih]

end Scale

section HypotFree

variable {K : Type} [LinearOrderedField K] [FloorRing K]

/-- For a segment that is neither horizontal nor vertical the value of `hypot` does not
matter as long as it is positive: it is a common factor of both ray parameters. -/
theorem trace_line_hypot_irrelevant (hypot hypot2 : K → K → K) (a b : V2 K) (s : Nat)
    (hx : b.x - a.x ≠ 0) (hy : b.y - a.y ≠ 0)
    (h1 : 0 < hypot (b.x - a.x) (b.y - a.y)) (h2 : 0 < hypot2 (b.x - a.x) (b.y - a.y)) :
    trace_line hypot a b s = trace_line hypot2 a b s := by
  have key : ∀ hyp : K → K → K, 0 < hyp (b.x - a.x) (b.y - a.y) →
      trace_line hyp a b s = trace_line (fun _ _ => (1 : K)) a b s := by
    intro hyp hpos
    have hne : hyp (b.x - a.x) (b.y - a.y) ≠ 0 := ne_of_gt hpos
    unfold trace_line
    simp only [V2.sub, ne_eq, div_eq_zero_iff, hx, hy, hne, or_self, not_false_eq_true,
      if_true, div_one, div_div_eq_mul_div]
    conv_rhs => rw [← trace_loop_scale (hyp (b.x - a.x) (b.y - a.y)) hpos]
    congr 1 <;> ring
  rw [key hypot h1, key hypot2 h2]

end HypotFree

section Diagonal

variable {K : Type} [LinearOrderedField K] [FloorRing K]

theorem size_t_mul_three_one : size_t_mul (size_t_of_int 3) 1 = 3 := by decide

/-- The diagonal from `(0, 0)` to `(3, 3)`, cell size 1: every tie at a grid corner is
broken towards `y`. -/
theorem trace_diagonal_up (hypot : K → K → K) (h : 0 < hypot 3 3) :
    trace_line hypot ⟨0, 0⟩ ⟨3, 3⟩ 1 =
      [⟨0, 0⟩, ⟨0, 1⟩, ⟨1, 1⟩, ⟨1, 2⟩, ⟨2, 2⟩, ⟨2, 3⟩, ⟨3, 3⟩] := by
  rw [trace_line_hypot_irrelevant hypot (fun _ _ => (1 : K)) ⟨0, 0⟩ ⟨3, 3⟩ 1
    (by norm_num) (by norm_num) (by simpa using h) (by norm_num)]
  simp only [trace_line, point_to_grid_fnc, V2.sub]
  norm_num [size_t_mul_zero_one, size_t_mul_one_one]
  norm_num [trace_loop, abs_div, abs_neg, Nat.abs_ofNat]
  decide

/-- The diagonal from `(3, 3)` to `(0, 0)`, cell size 1. -/
theorem trace_diagonal_down (hypot : K → K → K) (h : 0 < hypot (-3) (-3)) :
    trace_line hypot ⟨3, 3⟩ ⟨0, 0⟩ 1 =
      [⟨0, 0⟩, ⟨1, 0⟩, ⟨1, 1⟩, ⟨2, 1⟩, ⟨2, 2⟩, ⟨3, 2⟩, ⟨3, 3⟩] := by
  rw [trace_line_hypot_irrelevant hypot (fun _ _ => (1 : K)) ⟨3, 3⟩ ⟨0, 0⟩ 1
    (by norm_num) (by norm_num) (by simpa using h) (by norm_num)]
  simp only [trace_line, point_to_grid_fnc, V2.sub]
  norm_num [size_t_mul_zero_one, size_t_mul_one_one, size_t_mul_three_one]
  norm_num [trace_loop, abs_div, abs_neg, Nat.abs_ofNat]
  decide

end Diagonal

/-! ## The staircase -/

section Staircase

variable {K : Type} [LinearOrderedField K]

/-- The loop walks a staircase: every cell lies on the side of `start` given by the step
directions, and the cells inserted so far sit at the distances `0, 1, ..., k` from
`start`, one cell at each distance, the current cell at distance `k`. -/
theorem trace_loop_staircase (step_x step_y : Int) (hx : step_x * step_x = 1)
    (hy : step_y * step_y = 1) (dx dy : K) (start : V2i) (n : Nat) (v h : K) (cur : V2i)
    (cells : List V2i) (k : Int)
    (hcur : cur ∈ cells)
    (hcurx : 0 ≤ step_x * (cur.x - start.x)) (hcury : 0 ≤ step_y * (cur.y - start.y))
    (hcurd : step_x * (cur.x - start.x) + step_y * (cur.y - start.y) = k)
    (ha : ∀ c ∈ cells, 0 ≤ step_x * (c.x - start.x) ∧ 0 ≤ step_y * (c.y - start.y) ∧
      step_x * (c.x - start.x) + step_y * (c.y - start.y) ≤ k)
    (hb : ∀ j : Int, 0 ≤ j → j ≤ k → ∃ c ∈ cells,
      step_x * (c.x - start.x) + step_y * (c.y - start.y) = j)
    (hu : ∀ c ∈ cells, ∀ d ∈ cells,
      step_x * (c.x - start.x) + step_y * (c.y - start.y) =
        step_x * (d.x - start.x) + step_y * (d.y - start.y) → c = d) :
    (∀ c ∈ trace_loop step_x step_y dx dy n v h cur cells,
      0 ≤ step_x * (c.x - start.x) ∧ 0 ≤ step_y * (c.y - start.y) ∧
      step_x * (c.x - start.x) + step_y * (c.y - start.y) ≤ k + n) ∧
    (∀ j : Int, 0 ≤ j → j ≤ k + n → ∃ c ∈ trace_loop step_x step_y dx dy n v h cur cells,
      step_x * (c.x - start.x) + step_y * (c.y - start.y) = j) ∧
    (∀ c ∈ trace_loop step_x step_y dx dy n v h cur cells,
      ∀ d ∈ trace_loop step_x step_y dx dy n v h cur cells,
      step_x * (c.x - start.x) + step_y * (c.y - start.y) =
        step_x * (d.x - start.x) + step_y * (d.y - start.y) → c = d) := by
  induction n generalizing v h cur cells k with
  | zero =>
    simp only [trace_loop, Nat.cast_zero, add_zero]
    exact ⟨ha, hb, hu⟩
  | succ n ih =>
    -- one step to the cell `c1`, at distance `k + 1`
    have step : ∀ (v1 h1 : K) (c1 : V2i),
        0 ≤ step_x * (c1.x - start.x) → 0 ≤ step_y * (c1.y - start.y) →
        step_x * (c1.x - start.x) + step_y * (c1.y - start.y) = k + 1 →
        (∀ c ∈ trace_loop step_x step_y dx dy n v1 h1 c1 (set_insert c1 cells),
          0 ≤ step_x * (c.x - start.x) ∧ 0 ≤ step_y * (c.y - start.y) ∧
          step_x * (c.x - start.x) + step_y * (c.y - start.y) ≤ k + (n + 1 : Nat)) ∧
        (∀ j : Int, 0 ≤ j → j ≤ k + (n + 1 : Nat) →
          ∃ c ∈ trace_loop step_x step_y dx dy n v1 h1 c1 (set_insert c1 cells),
          step_x * (c.x - start.x) + step_y * (c.y - start.y) = j) ∧
        (∀ c ∈ trace_loop step_x step_y dx dy n v1 h1 c1 (set_insert c1 cells),
          ∀ d ∈ trace_loop step_x step_y dx dy n v1 h1 c1 (set_insert c1 cells),
          step_x * (c.x - start.x) + step_y * (c.y - start.y) =
            step_x * (d.x - start.x) + step_y * (d.y - start.y) → c = d) := by
      intro v1 h1 c1 h1x h1y h1d
      have hk : (k + 1 : Int) + (n : Nat) = k + ((n + 1 : Nat) : Int) := by
        push_cast
        ring
      rw [← hk]
      apply ih v1 h1 c1 (set_insert c1 cells) (k + 1)
        ((mem_set_insert _ _ _).2 (Or.inl rfl)) h1x h1y h1d
      · intro c hc
        rcases (mem_set_insert _ _ _).1 hc with rfl | hc
        · exact ⟨h1x, h1y, le_of_eq h1d⟩
        · obtain ⟨a1, a2, a3⟩ := ha c hc
          exact ⟨a1, a2, by omega⟩
      · intro j hj0 hj
        by_cases hjk : j ≤ k
        · obtain ⟨c, hc, hcd⟩ := hb j hj0 hjk
          exact ⟨c, (mem_set_insert _ _ _).2 (Or.inr hc), hcd⟩
        · exact ⟨c1, (mem_set_insert _ _ _).2 (Or.inl rfl), by omega⟩
      · intro c hc d hd hcd
        rcases (mem_set_insert _ _ _).1 hc with hc1 | hc1
        · rcases (mem_set_insert _ _ _).1 hd with hd1 | hd1
          · rw [hc1, hd1]
          · have := (ha d hd1).2.2
            rw [hc1] at hcd
            omega
        · rcases (mem_set_insert _ _ _).1 hd with hd1 | hd1
          · have := (ha c hc1).2.2
            rw [hd1] at hcd
            omega
          · exact hu c hc1 d hd1 hcd
    unfold trace_loop
    split_ifs
    · apply step
      · simp only
        nlinarith
      · exact hcury
      · simp only
        nlinarith
    · apply step
      · exact hcurx
      · simp only
        nlinarith
      · simp only
        nlinarith

end Staircase

theorem natAbs_eq_step_mul (st d : Int) (hst : st = 1 ∨ st = -1) (h : 0 ≤ st * d) :
    (d.natAbs : Int) = st * d := by
  rcases hst with rfl | rfl
  · rw [one_mul] at h ⊢
    exact Int.natAbs_of_nonneg h
  · have h' : 0 ≤ -d := by simpa using h
    rw [← Int.natAbs_neg, Int.natAbs_of_nonneg h']
    ring

section StaircaseClaim

variable {K : Type} [LinearOrderedField K] [FloorRing K]

/-- C18. The traced path is a monotone staircase. With `N` the Manhattan distance
between the start cell and the end cell, the set returned by `trace_line` holds, for
each `k` from 0 to `N`, exactly one cell at Manhattan distance `k` from the start cell,
and every cell of it lies on the side of the start cell given by the step directions
`step_x`, `step_y` (the signs of the direction vector). -/
theorem trace_line_staircase (hypot : K → K → K) (a b : V2 K) (s : Nat) (_hs : 0 < s) :
    (∀ c ∈ trace_line hypot a b s,
      0 ≤ (if (b.sub a).x ≥ 0 then (1 : Int) else -1) * (c.x - (point_to_grid_fnc s a).x) ∧
      0 ≤ (if (b.sub a).y ≥ 0 then (1 : Int) else -1) * (c.y - (point_to_grid_fnc s a).y)) ∧
    (∀ k : Nat,
      k ≤ ((point_to_grid_fnc s b).x - (point_to_grid_fnc s a).x).natAbs +
          ((point_to_grid_fnc s b).y - (point_to_grid_fnc s a).y).natAbs →
      ∃! c : V2i, c ∈ trace_line hypot a b s ∧
        (c.x - (point_to_grid_fnc s a).x).natAbs +
          (c.y - (point_to_grid_fnc s a).y).natAbs = k) := by
  have hsx : (if (b.sub a).x ≥ 0 then (1 : Int) else -1) = 1 ∨
      (if (b.sub a).x ≥ 0 then (1 : Int) else -1) = -1 := by
    split_ifs
    · exact Or.inl rfl
    · exact Or.inr rfl
  have hsy : (if (b.sub a).y ≥ 0 then (1 : Int) else -1) = 1 ∨
      (if (b.sub a).y ≥ 0 then (1 : Int) else -1) = -1 := by
    split_ifs
    · exact Or.inl rfl
    · exact Or.inr rfl
  generalize hstx : (if (b.sub a).x ≥ 0 then (1 : Int) else -1) = step_x at hsx
  generalize hsty : (if (b.sub a).y ≥ 0 then (1 : Int) else -1) = step_y at hsy
  have hx1 : step_x * step_x = 1 := by rcases hsx with rfl | rfl <;> norm_num
  have hy1 : step_y * step_y = 1 := by rcases hsy with rfl | rfl <;> norm_num
  have key : ∀ (dx dy v h : K) (n : Nat), _ :=
    fun dx dy v h n => trace_loop_staircase step_x step_y hx1 hy1 dx dy
      (point_to_grid_fnc s a) n v h (point_to_grid_fnc s a)
      (set_insert (point_to_grid_fnc s a) []) 0
      (by simp [set_insert]) (by simp) (by simp) (by simp)
      (by
        intro c hc
        have hc' : c = point_to_grid_fnc s a := by simpa [set_insert] using hc
        rw [hc']
        simp)
      (by
        intro j hj0 hj
        refine ⟨point_to_grid_fnc s a, by simp [set_insert], ?_⟩
        simp
        omega)
      (by
        intro c hc d hd _
        have hc' : c = point_to_grid_fnc s a := by simpa [set_insert] using hc
        have hd' : d = point_to_grid_fnc s a := by simpa [set_insert] using hd
        rw [hc', hd'])
  have htl : ∃ (dx dy v h : K), trace_line hypot a b s =
      trace_loop step_x step_y dx dy
        (((point_to_grid_fnc s b).x - (point_to_grid_fnc s a).x).natAbs +
          ((point_to_grid_fnc s b).y - (point_to_grid_fnc s a).y).natAbs)
        v h (point_to_grid_fnc s a) (set_insert (point_to_grid_fnc s a) []) := by
    unfold trace_line
    simp only
    rw [hstx, hsty]
    exact ⟨_, _, _, _, rfl⟩
  obtain ⟨dx, dy, v, h, heq⟩ := htl
  obtain ⟨k1, k2, k3⟩ := key dx dy v h
    (((point_to_grid_fnc s b).x - (point_to_grid_fnc s a).x).natAbs +
      ((point_to_grid_fnc s b).y - (point_to_grid_fnc s a).y).natAbs)
  rw [← heq] at k1 k2 k3
  have hdist : ∀ c ∈ trace_line hypot a b s,
      (((c.x - (point_to_grid_fnc s a).x).natAbs +
        (c.y - (point_to_grid_fnc s a).y).natAbs : Nat) : Int) =
      step_x * (c.x - (point_to_grid_fnc s a).x) +
        step_y * (c.y - (point_to_grid_fnc s a).y) := by
    intro c hc
    obtain ⟨c1, c2, _⟩ := k1 c hc
    rw [Nat.cast_add, natAbs_eq_step_mul step_x _ hsx c1,
      natAbs_eq_step_mul step_y _ hsy c2]
  refine ⟨fun c hc => ⟨(k1 c hc).1, (k1 c hc).2.1⟩, ?_⟩
  intro k hk
  obtain ⟨c, hc, hcd⟩ := k2 k (by omega) (by
    simp only [zero_add]
    exact_mod_cast hk)
  refine ⟨c, ⟨hc, ?_⟩, ?_⟩
  · have := hdist c hc
    omega
  · rintro d ⟨hd, hdk⟩
    apply k3 d hd c hc
    have h1 := hdist d hd
    have h2 := hdist c hc
    omega

end StaircaseClaim

/-! ## Horizontal and vertical segments -/

section RayLemmas

variable {K : Type} [LinearOrderedField K] [FloorRing K]

/-- The function `trace_line` is its loop run on its locals. -/
theorem trace_line_eq_loop (hypot : K → K → K) (a b : V2 K) (s : Nat) :
    trace_line hypot a b s =
      trace_loop (if (b.sub a).x ≥ 0 then 1 else -1) (if (b.sub a).y ≥ 0 then 1 else -1)
        (dx hypot a b s) (dy hypot a b s)
        (((point_to_grid_fnc s b).x - (point_to_grid_fnc s a).x).natAbs +
          ((point_to_grid_fnc s b).y - (point_to_grid_fnc s a).y).natAbs)
        (ray_step_to_vside hypot a b s) (ray_step_to_hside hypot a b s)
        (point_to_grid_fnc s a) (set_insert (point_to_grid_fnc s a) []) := rfl

end RayLemmas

section AxisLoop

variable {K : Type} [LinearOrderedField K]

/-- While the `x` ray parameter stays below the `y` one, every iteration steps in `x`. -/
theorem trace_loop_all_x (step_x step_y : Int) (dx dy : K) (n : Nat) (v h : K)
    (cur : V2i) (cells : List V2i)
    (hlt : ∀ k : Nat, k < n → |v + (k : K) * dx| < |h|) (c : V2i) :
    c ∈ trace_loop step_x step_y dx dy n v h cur cells ↔
      c ∈ cells ∨ ∃ i : Nat, 1 ≤ i ∧ i ≤ n ∧ c = ⟨cur.x + i * step_x, cur.y⟩ := by
  induction n generalizing v cur cells with
  | zero =>
    simp only [trace_loop]
    constructor
    · exact Or.inl
    · rintro (hc | ⟨i, h1, h2, _⟩)
      · exact hc
      · omega
  | succ n ih =>
    have h0 : |v| < |h| := by simpa using hlt 0 (Nat.succ_pos n)
    unfold trace_loop
    rw [if_pos h0]
    rw [ih (v + dx) ⟨cur.x + step_x, cur.y⟩ _ (by
      intro k hk
      have := hlt (k + 1) (by omega)
      push_cast at this
      have e : v + dx + (k : K) * dx = v + ((k : K) + 1) * dx := by ring
      rw [e]
      exact this)]
    rw [mem_set_insert]
    constructor
    · rintro ((rfl | hc) | ⟨i, h1, h2, rfl⟩)
      · exact Or.inr ⟨1, le_refl _, by omega, by simp⟩
      · exact Or.inl hc
      · refine Or.inr ⟨i + 1, by omega, by omega, ?_⟩
        simp only [Nat.cast_add, Nat.cast_one]
        congr 1
        ring
    · rintro (hc | ⟨i, h1, h2, rfl⟩)
      · exact Or.inl (Or.inr hc)
      · by_cases hi : i = 1
        · subst hi
          exact Or.inl (Or.inl (by simp))
        · refine Or.inr ⟨i - 1, by omega, by omega, ?_⟩
          have : ((i - 1 : Nat) : Int) = (i : Int) - 1 := by omega
          rw [this]
          simp only
          congr 1
          ring

/-- While the `x` ray parameter is not below the `y` one, every iteration steps in `y`. -/
theorem trace_loop_all_y (step_x step_y : Int) (dx dy : K) (n : Nat) (v h : K)
    (cur : V2i) (cells : List V2i)
    (hge : ∀ k : Nat, k < n → ¬ |v| < |h + (k : K) * dy|) (c : V2i) :
    c ∈ trace_loop step_x step_y dx dy n v h cur cells ↔
      c ∈ cells ∨ ∃ i : Nat, 1 ≤ i ∧ i ≤ n ∧ c = ⟨cur.x, cur.y + i * step_y⟩ := by
  induction n generalizing h cur cells with
  | zero =>
    simp only [trace_loop]
    constructor
    · exact Or.inl
    · rintro (hc | ⟨i, h1, h2, _⟩)
      · exact hc
      · omega
  | succ n ih =>
    have h0 : ¬ |v| < |h| := by simpa using hge 0 (Nat.succ_pos n)
    unfold trace_loop
    rw [if_neg h0]
    rw [ih (h + dy) ⟨cur.x, cur.y + step_y⟩ _ (by
      intro k hk
      have := hge (k + 1) (by omega)
      push_cast at this
      have e : h + dy + (k : K) * dy = h + ((k : K) + 1) * dy := by ring
      rw [e]
      exact this)]
    rw [mem_set_insert]
    constructor
    · rintro ((rfl | hc) | ⟨i, h1, h2, rfl⟩)
      · exact Or.inr ⟨1, le_refl _, by omega, by simp⟩
      · exact Or.inl hc
      · refine Or.inr ⟨i + 1, by omega, by omega, ?_⟩
        simp only [Nat.cast_add, Nat.cast_one]
        congr 1
        ring
    · rintro (hc | ⟨i, h1, h2, rfl⟩)
      · exact Or.inl (Or.inr hc)
      · by_cases hi : i = 1
        · subst hi
          exact Or.inl (Or.inl (by simp))
        · refine Or.inr ⟨i - 1, by omega, by omega, ?_⟩
          have : ((i - 1 : Nat) : Int) = (i : Int) - 1 := by omega
          rw [this]
          simp only
          congr 1
          ring

end AxisLoop

section AxisClaim

variable {K : Type} [LinearOrderedField K] [FloorRing K]

theorem point_to_grid_fnc_mono (s : Nat) (hs : 0 < s) (p q : K) (h : p ≤ q) :
    ⌊p / (s : K)⌋ ≤ ⌊q / (s : K)⌋ := by
  apply Int.floor_le_floor
  have : (0 : K) < (s : K) := by exact_mod_cast hs
  exact div_le_div_of_nonneg_right h (le_of_lt this)

theorem abs_DBL_MAX (F : Type) [LinearOrderedField F] :
    |((DBL_MAX : Nat) : F)| = ((DBL_MAX : Nat) : F) :=
  abs_of_nonneg (Nat.cast_nonneg _)

/-- C16. A zero direction component is unreachable. For a horizontal segment
(`a.y = b.y`) whose `x` ray parameter stays below the sentinel at every iteration,
`trace_line` never steps in `y` and returns exactly the cells of the start row from
the start cell to the end cell; for a vertical segment (`a.x = b.x`) whose `y` ray
parameter stays below the sentinel it never steps in `x` and returns exactly the cells
of the start column from the start cell to the end cell. -/
theorem trace_line_axis_parallel (hypot : K → K → K) (a b : V2 K) (s : Nat) (hs : 0 < s) :
    (a.y = b.y →
      (∀ k : Nat,
        k < ((point_to_grid_fnc s b).x - (point_to_grid_fnc s a).x).natAbs +
            ((point_to_grid_fnc s b).y - (point_to_grid_fnc s a).y).natAbs →
        |ray_step_to_vside hypot a b s + (k : K) * dx hypot a b s| < (DBL_MAX : K)) →
      ∀ c : V2i, c ∈ trace_line hypot a b s ↔
        c.y = (point_to_grid_fnc s a).y ∧
        (((point_to_grid_fnc s a).x ≤ c.x ∧ c.x ≤ (point_to_grid_fnc s b).x) ∨
          ((point_to_grid_fnc s b).x ≤ c.x ∧ c.x ≤ (point_to_grid_fnc s a).x))) ∧
    (a.x = b.x →
      (∀ k : Nat,
        k < ((point_to_grid_fnc s b).x - (point_to_grid_fnc s a).x).natAbs +
            ((point_to_grid_fnc s b).y - (point_to_grid_fnc s a).y).natAbs →
        |ray_step_to_hside hypot a b s + (k : K) * dy hypot a b s| < (DBL_MAX : K)) →
      ∀ c : V2i, c ∈ trace_line hypot a b s ↔
        c.x = (point_to_grid_fnc s a).x ∧
        (((point_to_grid_fnc s a).y ≤ c.y ∧ c.y ≤ (point_to_grid_fnc s b).y) ∨
          ((point_to_grid_fnc s b).y ≤ c.y ∧ c.y ≤ (point_to_grid_fnc s a).y))) := by
  have hposx : (b.sub a).x ≥ 0 → (point_to_grid_fnc s a).x ≤ (point_to_grid_fnc s b).x := by
    intro hdir
    have : a.x ≤ b.x := by simpa [V2.sub] using hdir
    exact point_to_grid_fnc_mono s hs _ _ this
  have hnegx : ¬ (b.sub a).x ≥ 0 →
      (point_to_grid_fnc s b).x ≤ (point_to_grid_fnc s a).x := by
    intro hdir
    have h1 := not_le.1 hdir
    simp only [V2.sub] at h1
    exact point_to_grid_fnc_mono s hs _ _ (by linarith)
  have hposy : (b.sub a).y ≥ 0 → (point_to_grid_fnc s a).y ≤ (point_to_grid_fnc s b).y := by
    intro hdir
    have : a.y ≤ b.y := by simpa [V2.sub] using hdir
    exact point_to_grid_fnc_mono s hs _ _ this
  have hnegy : ¬ (b.sub a).y ≥ 0 →
      (point_to_grid_fnc s b).y ≤ (point_to_grid_fnc s a).y := by
    intro hdir
    have h1 := not_le.1 hdir
    simp only [V2.sub] at h1
    exact point_to_grid_fnc_mono s hs _ _ (by linarith)
  constructor
  · intro hy hbound c
    have hh : ray_step_to_hside hypot a b s = (DBL_MAX : K) := by
      unfold ray_step_to_hside
      simp [V2.sub, hy]
    have hly : (point_to_grid_fnc s b).y = (point_to_grid_fnc s a).y := by
      simp [point_to_grid_fnc, hy]
    rw [trace_line_eq_loop, trace_loop_all_x _ _ _ _ _ _ _ _ _ (by
      intro k hk
      rw [hh, abs_DBL_MAX K]
      exact hbound k hk)]
    simp only [set_insert, List.mem_singleton, hly, sub_self, Int.natAbs_zero, add_zero]
    clear hbound hly hposy hnegy
    generalize point_to_grid_fnc s a = sc at hposx hnegx ⊢
    generalize point_to_grid_fnc s b = lc at hposx hnegx ⊢
    obtain ⟨cx, cy⟩ := c
    obtain ⟨sx, sy⟩ := sc
    obtain ⟨lx, ly⟩ := lc
    simp only [V2.mk.injEq] at hposx hnegx ⊢
    by_cases hdir : (b.sub a).x ≥ 0
    · have hle := hposx hdir
      rw [if_pos hdir]
      constructor
      · rintro (⟨h1, h2⟩ | ⟨i, h1, h2, h3, h4⟩)
        · exact ⟨h2, Or.inl ⟨by omega, by omega⟩⟩
        · exact ⟨h4, Or.inl ⟨by omega, by omega⟩⟩
      · rintro ⟨h1, h2⟩
        by_cases he : cx = sx
        · exact Or.inl ⟨he, h1⟩
        · exact Or.inr ⟨(cx - sx).toNat, by omega, by omega, by omega, h1⟩
    · have hle := hnegx hdir
      rw [if_neg hdir]
      constructor
      · rintro (⟨h1, h2⟩ | ⟨i, h1, h2, h3, h4⟩)
        · exact ⟨h2, Or.inr ⟨by omega, by omega⟩⟩
        · exact ⟨h4, Or.inr ⟨by omega, by omega⟩⟩
      · rintro ⟨h1, h2⟩
        by_cases he : cx = sx
        · exact Or.inl ⟨he, h1⟩
        · exact Or.inr ⟨(sx - cx).toNat, by omega, by omega, by omega, h1⟩
  · intro hx hbound c
    have hv : ray_step_to_vside hypot a b s = (DBL_MAX : K) := by
      unfold ray_step_to_vside
      simp [V2.sub, hx]
    have hlx : (point_to_grid_fnc s b).x = (point_to_grid_fnc s a).x := by
      simp [point_to_grid_fnc, hx]
    rw [trace_line_eq_loop, trace_loop_all_y _ _ _ _ _ _ _ _ _ (by
      intro k hk
      rw [hv, abs_DBL_MAX K]
      exact not_lt.2 (le_of_lt (hbound k hk)))]
    simp only [set_insert, List.mem_singleton, hlx, sub_self, Int.natAbs_zero, zero_add]
    clear hbound hlx hposx hnegx
    generalize point_to_grid_fnc s a = sc at hposy hnegy ⊢
    generalize point_to_grid_fnc s b = lc at hposy hnegy ⊢
    obtain ⟨cx, cy⟩ := c
    obtain ⟨sx, sy⟩ := sc
    obtain ⟨lx, ly⟩ := lc
    simp only [V2.mk.injEq] at hposy hnegy ⊢
    by_cases hdir : (b.sub a).y ≥ 0
    · have hle := hposy hdir
      rw [if_pos hdir]
      constructor
      · rintro (⟨h1, h2⟩ | ⟨i, h1, h2, h3, h4⟩)
        · exact ⟨h1, Or.inl ⟨by omega, by omega⟩⟩
        · exact ⟨h3, Or.inl ⟨by omega, by omega⟩⟩
      · rintro ⟨h1, h2⟩
        by_cases he : cy = sy
        · exact Or.inl ⟨h1, he⟩
        · exact Or.inr ⟨(cy - sy).toNat, by omega, by omega, h1, by omega⟩
    · have hle := hnegy hdir
      rw [if_neg hdir]
      constructor
      · rintro (⟨h1, h2⟩ | ⟨i, h1, h2, h3, h4⟩)
        · exact ⟨h1, Or.inr ⟨by omega, by omega⟩⟩
        · exact ⟨h3, Or.inr ⟨by omega, by omega⟩⟩
      · rintro ⟨h1, h2⟩
        by_cases he : cy = sy
        · exact Or.inl ⟨h1, he⟩
        · exact Or.inr ⟨(sy - cy).toNat, by omega, by omega, h1, by omega⟩

end AxisClaim

/-! ## The scenarios -/

theorem size_t_mul_zero_ten : size_t_mul (size_t_of_int 0) 10 = 0 := by decide

theorem size_t_mul_one_ten : size_t_mul (size_t_of_int 1) 10 = 10 := by decide

theorem size_t_mul_three_ten : size_t_mul (size_t_of_int 3) 10 = 30 := by decide

theorem size_t_mul_four_ten : size_t_mul (size_t_of_int 4) 10 = 40 := by decide

theorem size_t_mul_four_one : size_t_mul (size_t_of_int 4) 1 = 4 := by decide

theorem size_t_mul_five_one : size_t_mul (size_t_of_int 5) 1 = 5 := by decide

/-- The bottom edge of the square, from `(0, 0)` to `(30, 0)`, cell size 10. -/
theorem trace_square_bottom :
    trace_line hypotQ ⟨0, 0⟩ ⟨30, 0⟩ 10 = [⟨0, 0⟩, ⟨1, 0⟩, ⟨2, 0⟩, ⟨3, 0⟩] := by
  have hh : hypotQ 30 0 = 30 := hypotQ_eq _ _ _ (by norm_num) (by norm_num)
  simp only [trace_line, point_to_grid_fnc, V2.sub]
  norm_num [hh, size_t_mul_zero_ten, size_t_mul_one_ten, size_t_mul_three_ten,
    size_t_mul_four_ten, DBL_MAX]
  norm_num [trace_loop, abs_div, abs_neg, Nat.abs_ofNat]
  decide

/-- The right edge of the square, from `(30, 0)` to `(30, 30)`, cell size 10. -/
theorem trace_square_right :
    trace_line hypotQ ⟨30, 0⟩ ⟨30, 30⟩ 10 = [⟨3, 0⟩, ⟨3, 1⟩, ⟨3, 2⟩, ⟨3, 3⟩] := by
  have hh : hypotQ 0 30 = 30 := hypotQ_eq _ _ _ (by norm_num) (by norm_num)
  simp only [trace_line, point_to_grid_fnc, V2.sub]
  norm_num [hh, size_t_mul_zero_ten, size_t_mul_one_ten, size_t_mul_three_ten,
    size_t_mul_four_ten, DBL_MAX]
  norm_num [trace_loop, abs_div, abs_neg, Nat.abs_ofNat]
  decide

/-- The top edge of the square, from `(30, 30)` to `(0, 30)`, cell size 10. -/
theorem trace_square_top :
    trace_line hypotQ ⟨30, 30⟩ ⟨0, 30⟩ 10 = [⟨0, 3⟩, ⟨1, 3⟩, ⟨2, 3⟩, ⟨3, 3⟩] := by
  have hh : hypotQ (-30) 0 = 30 := hypotQ_eq _ _ _ (by norm_num) (by norm_num)
  simp only [trace_line, point_to_grid_fnc, V2.sub]
  norm_num [hh, size_t_mul_zero_ten, size_t_mul_one_ten, size_t_mul_three_ten,
    size_t_mul_four_ten, DBL_MAX]
  norm_num [trace_loop, abs_div, abs_neg, Nat.abs_ofNat]
  decide

/-- The left edge of the square, from `(0, 30)` to `(0, 0)`, cell size 10. -/
theorem trace_square_left :
    trace_line hypotQ ⟨0, 30⟩ ⟨0, 0⟩ 10 = [⟨0, 0⟩, ⟨0, 1⟩, ⟨0, 2⟩, ⟨0, 3⟩] := by
  have hh : hypotQ 0 (-30) = 30 := hypotQ_eq _ _ _ (by norm_num) (by norm_num)
  simp only [trace_line, point_to_grid_fnc, V2.sub]
  norm_num [hh, size_t_mul_zero_ten, size_t_mul_one_ten, size_t_mul_three_ten,
    size_t_mul_four_ten, DBL_MAX]
  norm_num [trace_loop, abs_div, abs_neg, Nat.abs_ofNat]
  decide

/-- The outline of the square `(0,0), (30,0), (30,30), (0,30)` with cell size 10. -/
theorem outline_square :
    outline hypotQ [⟨0, 0⟩, ⟨30, 0⟩, ⟨30, 30⟩, ⟨0, 30⟩] 10 =
      [⟨0, 0⟩, ⟨0, 1⟩, ⟨0, 2⟩, ⟨0, 3⟩, ⟨1, 0⟩, ⟨1, 3⟩, ⟨2, 0⟩, ⟨2, 3⟩,
        ⟨3, 0⟩, ⟨3, 1⟩, ⟨3, 2⟩, ⟨3, 3⟩] := by
  simp only [outline, closed_edges, List.zip_cons_cons, List.zip_nil_right,
    List.getLast_cons_cons, List.getLast_singleton, List.cons_append, List.nil_append,
    List.map_cons, List.map_nil, trace_square_bottom, trace_square_right,
    trace_square_top, trace_square_left]
  decide

theorem pick_cells_square :
    pick_cells hypotQ [⟨0, 0⟩, ⟨30, 0⟩, ⟨30, 30⟩, ⟨0, 30⟩] 10 =
      some [⟨0, 0⟩, ⟨0, 1⟩, ⟨0, 2⟩, ⟨0, 3⟩, ⟨1, 0⟩, ⟨1, 1⟩, ⟨1, 2⟩, ⟨1, 3⟩,
        ⟨2, 0⟩, ⟨2, 1⟩, ⟨2, 2⟩, ⟨2, 3⟩, ⟨3, 0⟩, ⟨3, 1⟩, ⟨3, 2⟩, ⟨3, 3⟩] := by
  unfold pick_cells
  rw [outline_square]
  decide

/-- The slanted edge of the triangle `(0,4), (3,0), (3,4)`, from `(0, 4)` to the grid
corner `(3, 0)`: the last iteration steps in `y`, to the cell `(2, -1)`. -/
theorem trace_triangle_slant :
    trace_line hypotQ ⟨0, 4⟩ ⟨3, 0⟩ 1 =
      [⟨0, 2⟩, ⟨0, 3⟩, ⟨0, 4⟩, ⟨1, 1⟩, ⟨1, 2⟩, ⟨2, -1⟩, ⟨2, 0⟩, ⟨2, 1⟩] := by
  have hh : hypotQ 3 (-4) = 5 := hypotQ_eq _ _ _ (by norm_num) (by norm_num)
  simp only [trace_line, point_to_grid_fnc, V2.sub]
  norm_num [hh, size_t_mul_four_one, size_t_mul_one_one]
  norm_num [trace_loop, abs_div, abs_neg, Nat.abs_ofNat]
  decide

theorem trace_triangle_right :
    trace_line hypotQ ⟨3, 0⟩ ⟨3, 4⟩ 1 = [⟨3, 0⟩, ⟨3, 1⟩, ⟨3, 2⟩, ⟨3, 3⟩, ⟨3, 4⟩] := by
  have hh : hypotQ 0 4 = 4 := hypotQ_eq _ _ _ (by norm_num) (by norm_num)
  simp only [trace_line, point_to_grid_fnc, V2.sub]
  norm_num [hh, size_t_mul_four_one, size_t_mul_one_one, size_t_mul_three_one,
    size_t_mul_five_one, DBL_MAX]
  norm_num [trace_loop, abs_div, abs_neg, Nat.abs_ofNat]
  decide

theorem trace_triangle_top :
    trace_line hypotQ ⟨3, 4⟩ ⟨0, 4⟩ 1 = [⟨0, 4⟩, ⟨1, 4⟩, ⟨2, 4⟩, ⟨3, 4⟩] := by
  have hh : hypotQ (-3) 0 = 3 := hypotQ_eq _ _ _ (by norm_num) (by norm_num)
  simp only [trace_line, point_to_grid_fnc, V2.sub]
  norm_num [hh, size_t_mul_four_one, size_t_mul_one_one, size_t_mul_three_one,
    size_t_mul_five_one, DBL_MAX]
  norm_num [trace_loop, abs_div, abs_neg, Nat.abs_ofNat]
  decide

theorem pick_cells_triangle :
    pick_cells hypotQ [⟨0, 4⟩, ⟨3, 0⟩, ⟨3, 4⟩] 1 =
      some [⟨0, 2⟩, ⟨0, 3⟩, ⟨0, 4⟩, ⟨1, 1⟩, ⟨1, 2⟩, ⟨1, 3⟩, ⟨1, 4⟩, ⟨2, -1⟩, ⟨2, 0⟩,
        ⟨2, 1⟩, ⟨2, 2⟩, ⟨2, 3⟩, ⟨2, 4⟩, ⟨3, 0⟩, ⟨3, 1⟩, ⟨3, 2⟩, ⟨3, 3⟩, ⟨3, 4⟩] := by
  simp only [pick_cells, outline, closed_edges, List.zip_cons_cons, List.zip_nil_right,
    List.getLast_cons_cons, List.getLast_singleton, List.cons_append, List.nil_append,
    List.map_cons, List.map_nil, trace_triangle_slant, trace_triangle_right,
    trace_triangle_top]
  decide

section Scenario1

variable {K : Type} [LinearOrderedField K] [FloorRing K]

theorem outline_diagonal (hypot : K → K → K) (h1 : 0 < hypot 3 3)
    (h2 : 0 < hypot (-3) (-3)) :
    outline hypot [⟨0, 0⟩, ⟨3, 3⟩] 1 =
      [⟨0, 0⟩, ⟨0, 1⟩, ⟨1, 0⟩, ⟨1, 1⟩, ⟨1, 2⟩, ⟨2, 1⟩, ⟨2, 2⟩, ⟨2, 3⟩, ⟨3, 2⟩, ⟨3, 3⟩] := by
  simp only [outline, closed_edges, List.zip_cons_cons, List.zip_nil_right,
    List.getLast_cons_cons, List.getLast_singleton, List.cons_append, List.nil_append,
    List.map_cons, List.map_nil, trace_diagonal_up hypot h1, trace_diagonal_down hypot h2]
  decide

theorem pick_cells_diagonal (hypot : K → K → K) (h1 : 0 < hypot 3 3)
    (h2 : 0 < hypot (-3) (-3)) :
    pick_cells hypot [⟨0, 0⟩, ⟨3, 3⟩] 1 =
      some [⟨0, 0⟩, ⟨0, 1⟩, ⟨1, 0⟩, ⟨1, 1⟩, ⟨1, 2⟩, ⟨2, 1⟩, ⟨2, 2⟩, ⟨2, 3⟩,
        ⟨3, 2⟩, ⟨3, 3⟩] := by
  unfold pick_cells
  rw [outline_diagonal hypot h1 h2, if_neg (by simp)]
  decide

end Scenario1

theorem hypotQ_three_three : hypotQ 3 3 = 4 := by
  have h18 : (3 : ℚ) * 3 + 3 * 3 = 18 := by norm_num
  have hs : Nat.sqrt 18 = 4 := (Nat.eq_sqrt.2 ⟨by norm_num, by norm_num⟩).symm
  rw [hypotQ, h18, Rat.sqrt]
  simp [Int.sqrt, hs]

theorem hypotQ_neg_three_neg_three : hypotQ (-3) (-3) = 4 := by
  have h18 : (-3 : ℚ) * (-3) + (-3) * (-3) = 18 := by norm_num
  have hs : Nat.sqrt 18 = 4 := (Nat.eq_sqrt.2 ⟨by norm_num, by norm_num⟩).symm
  rw [hypotQ, h18, Rat.sqrt]
  simp [Int.sqrt, hs]

/-! ## Claims on the interior fill: witnesses -/

/-- C11, at the set `(0, 0), (0, 4), (1, 2), (1, 3)`. -/
theorem inner_fill_idempotent_witness :
    ([⟨0, 0⟩, ⟨0, 4⟩, ⟨1, 2⟩, ⟨1, 3⟩] : List V2i).Pairwise V2.lt ∧
    ([⟨0, 0⟩, ⟨0, 4⟩, ⟨1, 2⟩, ⟨1, 3⟩] : List V2i) ≠ [] ∧
    ∃ r, inner_fill [⟨0, 0⟩, ⟨0, 4⟩, ⟨1, 2⟩, ⟨1, 3⟩] = some r ∧ inner_fill r = some r :=
  ⟨by decide, by decide,
    inner_fill_idempotent [⟨0, 0⟩, ⟨0, 4⟩, ⟨1, 2⟩, ⟨1, 3⟩] (by decide) (by decide)⟩

/-- C15, at the outline `(0, 0), (0, 5), (0, 6), (2, 1)`: in the column 0 the
implemented scan also puts the outline cell `(0, 5)` into its to-add set. -/
theorem inner_fill_refines_spec_witness :
    ([⟨0, 0⟩, ⟨0, 5⟩, ⟨0, 6⟩, ⟨2, 1⟩] : List V2i).Pairwise V2.lt ∧
    ([⟨0, 0⟩, ⟨0, 5⟩, ⟨0, 6⟩, ⟨2, 1⟩] : List V2i) ≠ [] ∧
    ∃ r, inner_fill [⟨0, 0⟩, ⟨0, 5⟩, ⟨0, 6⟩, ⟨2, 1⟩] = some r ∧
      inner_fill_spec [⟨0, 0⟩, ⟨0, 5⟩, ⟨0, 6⟩, ⟨2, 1⟩] = some r :=
  ⟨by decide, by decide,
    (inner_fill_refines_spec [⟨0, 0⟩, ⟨0, 5⟩, ⟨0, 6⟩, ⟨2, 1⟩] (by decide) (by decide)).1⟩

/-- C17, at the outline `(0, 0), (0, 2), (0, 7), (3, 1), (3, 3)`. -/
theorem inner_fill_no_gap_witness :
    ([⟨0, 0⟩, ⟨0, 2⟩, ⟨0, 7⟩, ⟨3, 1⟩, ⟨3, 3⟩] : List V2i).Pairwise V2.lt ∧
    ([⟨0, 0⟩, ⟨0, 2⟩, ⟨0, 7⟩, ⟨3, 1⟩, ⟨3, 3⟩] : List V2i) ≠ [] ∧
    ∃ r, inner_fill [⟨0, 0⟩, ⟨0, 2⟩, ⟨0, 7⟩, ⟨3, 1⟩, ⟨3, 3⟩] = some r ∧
      ∀ x y1 y2 y : Int,
        (⟨x, y1⟩ : V2i) ∈ ([⟨0, 0⟩, ⟨0, 2⟩, ⟨0, 7⟩, ⟨3, 1⟩, ⟨3, 3⟩] : List V2i) →
        (⟨x, y2⟩ : V2i) ∈ ([⟨0, 0⟩, ⟨0, 2⟩, ⟨0, 7⟩, ⟨3, 1⟩, ⟨3, 3⟩] : List V2i) →
        y1 < y → y < y2 → (⟨x, y⟩ : V2i) ∈ r :=
  ⟨by decide, by decide,
    inner_fill_no_gap [⟨0, 0⟩, ⟨0, 2⟩, ⟨0, 7⟩, ⟨3, 1⟩, ⟨3, 3⟩] (by decide) (by decide)⟩

/-! ## Claims on `trace_line`: witnesses and evaluations -/

/-- C18, at the segment from `(0, 4)` to `(3, 0)` with cell size 1. -/
theorem trace_line_staircase_witness :
    0 < 1 ∧
    (∀ c ∈ trace_line hypotQ ⟨0, 4⟩ ⟨3, 0⟩ 1,
      0 ≤ (if ((⟨3, 0⟩ : V2 ℚ).sub ⟨0, 4⟩).x ≥ 0 then (1 : Int) else -1) *
        (c.x - (point_to_grid_fnc 1 (⟨0, 4⟩ : V2 ℚ)).x) ∧
      0 ≤ (if ((⟨3, 0⟩ : V2 ℚ).sub ⟨0, 4⟩).y ≥ 0 then (1 : Int) else -1) *
        (c.y - (point_to_grid_fnc 1 (⟨0, 4⟩ : V2 ℚ)).y)) ∧
    (∀ k : Nat,
      k ≤ ((point_to_grid_fnc 1 (⟨3, 0⟩ : V2 ℚ)).x -
            (point_to_grid_fnc 1 (⟨0, 4⟩ : V2 ℚ)).x).natAbs +
          ((point_to_grid_fnc 1 (⟨3, 0⟩ : V2 ℚ)).y -
            (point_to_grid_fnc 1 (⟨0, 4⟩ : V2 ℚ)).y).natAbs →
      ∃! c : V2i, c ∈ trace_line hypotQ ⟨0, 4⟩ ⟨3, 0⟩ 1 ∧
        (c.x - (point_to_grid_fnc 1 (⟨0, 4⟩ : V2 ℚ)).x).natAbs +
          (c.y - (point_to_grid_fnc 1 (⟨0, 4⟩ : V2 ℚ)).y).natAbs = k) :=
  ⟨by decide, trace_line_staircase hypotQ ⟨0, 4⟩ ⟨3, 0⟩ 1 (by decide)⟩

/-- The `x` ray parameter of the segment from `(1/2, 1/2)` to `(5/2, 1/2)`, cell size 1,
stays below the sentinel. -/
theorem horizontal_ray_below_sentinel (k : Nat) :
    k < ((point_to_grid_fnc 1 (⟨5/2, 1/2⟩ : V2 ℚ)).x -
          (point_to_grid_fnc 1 (⟨1/2, 1/2⟩ : V2 ℚ)).x).natAbs +
        ((point_to_grid_fnc 1 (⟨5/2, 1/2⟩ : V2 ℚ)).y -
          (point_to_grid_fnc 1 (⟨1/2, 1/2⟩ : V2 ℚ)).y).natAbs →
      |ray_step_to_vside hypotQ ⟨1/2, 1/2⟩ ⟨5/2, 1/2⟩ 1 +
        (k : ℚ) * dx hypotQ ⟨1/2, 1/2⟩ ⟨5/2, 1/2⟩ 1| < (DBL_MAX : ℚ) := by
  have hh : hypotQ 2 0 = 2 := hypotQ_eq _ _ _ (by norm_num) (by norm_num)
  have hv : ray_step_to_vside hypotQ ⟨1/2, 1/2⟩ ⟨5/2, 1/2⟩ 1 = 1/2 := by
    simp only [ray_step_to_vside, point_to_grid_fnc, V2.sub]
    norm_num [hh, size_t_mul_one_one]
  have hd : dx hypotQ ⟨1/2, 1/2⟩ ⟨5/2, 1/2⟩ 1 = 1 := by
    simp only [dx, V2.sub]
    norm_num [hh]
  intro hk
  have hk2 : k < 2 := by
    norm_num [point_to_grid_fnc] at hk
    exact hk
  rw [hv, hd]
  have h0 : (0 : ℚ) ≤ (k : ℚ) := Nat.cast_nonneg k
  have h2 : (k : ℚ) < 2 := by exact_mod_cast hk2
  rw [abs_of_nonneg (by linarith)]
  have hbig : (3 : ℚ) < ((DBL_MAX : Nat) : ℚ) := by norm_num [DBL_MAX]
  linarith

/-- The `y` ray parameter of the segment from `(1/2, 5/2)` to `(1/2, 1/2)`, cell size 1,
stays below the sentinel. -/
theorem vertical_ray_below_sentinel (k : Nat) :
    k < ((point_to_grid_fnc 1 (⟨1/2, 1/2⟩ : V2 ℚ)).x -
          (point_to_grid_fnc 1 (⟨1/2, 5/2⟩ : V2 ℚ)).x).natAbs +
        ((point_to_grid_fnc 1 (⟨1/2, 1/2⟩ : V2 ℚ)).y -
          (point_to_grid_fnc 1 (⟨1/2, 5/2⟩ : V2 ℚ)).y).natAbs →
      |ray_step_to_hside hypotQ ⟨1/2, 5/2⟩ ⟨1/2, 1/2⟩ 1 +
        (k : ℚ) * dy hypotQ ⟨1/2, 5/2⟩ ⟨1/2, 1/2⟩ 1| < (DBL_MAX : ℚ) := by
  have hh : hypotQ 0 (-2) = 2 := hypotQ_eq _ _ _ (by norm_num) (by norm_num)
  have hv : ray_step_to_hside hypotQ ⟨1/2, 5/2⟩ ⟨1/2, 1/2⟩ 1 = -(1/2) := by
    simp only [ray_step_to_hside, point_to_grid_fnc, V2.sub]
    norm_num [hh, size_t_mul_two_one]
  have hd : dy hypotQ ⟨1/2, 5/2⟩ ⟨1/2, 1/2⟩ 1 = -1 := by
    simp only [dy, V2.sub]
    norm_num [hh]
  intro hk
  have hk2 : k < 2 := by
    norm_num [point_to_grid_fnc] at hk
    exact hk
  rw [hv, hd]
  have h0 : (0 : ℚ) ≤ (k : ℚ) := Nat.cast_nonneg k
  have h2 : (k : ℚ) < 2 := by exact_mod_cast hk2
  rw [abs_of_nonpos (by linarith)]
  have hbig : (3 : ℚ) < ((DBL_MAX : Nat) : ℚ) := by norm_num [DBL_MAX]
  linarith

/-- C16, at the horizontal segment from `(1/2, 1/2)` to `(5/2, 1/2)` and at the
vertical segment from `(1/2, 5/2)` to `(1/2, 1/2)`, cell size 1. -/
theorem trace_line_axis_parallel_witness :
    0 < 1 ∧
    (∀ c : V2i, c ∈ trace_line hypotQ ⟨1/2, 1/2⟩ ⟨5/2, 1/2⟩ 1 ↔
      c.y = (point_to_grid_fnc 1 (⟨1/2, 1/2⟩ : V2 ℚ)).y ∧
      (((point_to_grid_fnc 1 (⟨1/2, 1/2⟩ : V2 ℚ)).x ≤ c.x ∧
          c.x ≤ (point_to_grid_fnc 1 (⟨5/2, 1/2⟩ : V2 ℚ)).x) ∨
        ((point_to_grid_fnc 1 (⟨5/2, 1/2⟩ : V2 ℚ)).x ≤ c.x ∧
          c.x ≤ (point_to_grid_fnc 1 (⟨1/2, 1/2⟩ : V2 ℚ)).x))) ∧
    (∀ c : V2i, c ∈ trace_line hypotQ ⟨1/2, 5/2⟩ ⟨1/2, 1/2⟩ 1 ↔
      c.x = (point_to_grid_fnc 1 (⟨1/2, 5/2⟩ : V2 ℚ)).x ∧
      (((point_to_grid_fnc 1 (⟨1/2, 5/2⟩ : V2 ℚ)).y ≤ c.y ∧
          c.y ≤ (point_to_grid_fnc 1 (⟨1/2, 1/2⟩ : V2 ℚ)).y) ∨
        ((point_to_grid_fnc 1 (⟨1/2, 1/2⟩ : V2 ℚ)).y ≤ c.y ∧
          c.y ≤ (point_to_grid_fnc 1 (⟨1/2, 5/2⟩ : V2 ℚ)).y))) :=
  ⟨by decide,
    (trace_line_axis_parallel hypotQ ⟨1/2, 1/2⟩ ⟨5/2, 1/2⟩ 1 (by decide)).1 rfl
      horizontal_ray_below_sentinel,
    (trace_line_axis_parallel hypotQ ⟨1/2, 5/2⟩ ⟨1/2, 1/2⟩ 1 (by decide)).2 rfl
      vertical_ray_below_sentinel⟩

/-- The segment from `(1/2, 1/2)` to `(5/4, 3/2)`, cell size 1. -/
theorem trace_shift_origin :
    trace_line hypotQ ⟨1/2, 1/2⟩ ⟨5/4, 3/2⟩ 1 = [⟨0, 0⟩, ⟨0, 1⟩, ⟨1, 1⟩] := by
  have hh : hypotQ (3/4) 1 = 5/4 := hypotQ_eq _ _ _ (by norm_num) (by norm_num)
  simp only [trace_line, point_to_grid_fnc, V2.sub]
  norm_num [hh, size_t_mul_one_one]
  norm_num [trace_loop, abs_div, abs_neg, Nat.abs_ofNat]
  decide

/-- The same segment moved two cells to the left, from `(-3/2, 1/2)` to `(-3/4, 3/2)`:
the product `(start_cell.x + 1) * _cell_size` is `2 ^ 64 - 1`. -/
theorem trace_shift_moved :
    trace_line hypotQ ⟨1/2 + (-2) * 1, 1/2 + 0 * 1⟩ ⟨5/4 + (-2) * 1, 3/2 + 0 * 1⟩ 1 =
      [⟨-2, 0⟩, ⟨-2, 1⟩, ⟨-2, 2⟩] := by
  have hh : hypotQ (3/4) 1 = 5/4 := hypotQ_eq _ _ _ (by norm_num) (by norm_num)
  have e1 : size_t_mul (size_t_of_int (-1)) 1 = 18446744073709551615 := by decide
  simp only [trace_line, point_to_grid_fnc, V2.sub]
  norm_num [hh, e1, size_t_mul_one_one]
  norm_num [trace_loop, abs_div, abs_neg, Nat.abs_ofNat]
  decide

/-- C20, at a shift into negative coordinates. The segment from `(1/2, 1/2)` to
`(5/4, 3/2)` with cell size 1 has the trace `(0,0), (0,1), (1,1)`; moved by
`(kx, ky) = (-2, 0)` cells its trace is `(-2,0), (-2,1), (-2,2)`, which is not the first
trace with every cell shifted by `(-2, 0)`. -/
theorem trace_line_translation_negative :
    trace_line hypotQ ⟨1/2, 1/2⟩ ⟨5/4, 3/2⟩ 1 = [⟨0, 0⟩, ⟨0, 1⟩, ⟨1, 1⟩] ∧
    trace_line hypotQ ⟨1/2 + (-2) * 1, 1/2 + 0 * 1⟩ ⟨5/4 + (-2) * 1, 3/2 + 0 * 1⟩ 1 =
      [⟨-2, 0⟩, ⟨-2, 1⟩, ⟨-2, 2⟩] ∧
    trace_line hypotQ ⟨1/2 + (-2) * 1, 1/2 + 0 * 1⟩ ⟨5/4 + (-2) * 1, 3/2 + 0 * 1⟩ 1 ≠
      (trace_line hypotQ ⟨1/2, 1/2⟩ ⟨5/4, 3/2⟩ 1).map
        (fun c => (⟨c.x + (-2), c.y + 0⟩ : V2i)) := by
  refine ⟨trace_shift_origin, trace_shift_moved, ?_⟩
  rw [trace_shift_origin, trace_shift_moved]
  decide

/-- C12 as stated fails: on the square `(0,0), (30,0), (30,30), (0,30)` with cell size
10, `pick_cells` does not return the 3x3 block; the set it returns has 16 cells, among
them `(3, 3)`. -/
theorem pick_cells_square_counterexample :
    pick_cells hypotQ [⟨0, 0⟩, ⟨30, 0⟩, ⟨30, 30⟩, ⟨0, 30⟩] 10 ≠
      some [⟨0, 0⟩, ⟨0, 1⟩, ⟨0, 2⟩, ⟨1, 0⟩, ⟨1, 1⟩, ⟨1, 2⟩, ⟨2, 0⟩, ⟨2, 1⟩, ⟨2, 2⟩] ∧
    ∃ r, pick_cells hypotQ [⟨0, 0⟩, ⟨30, 0⟩, ⟨30, 30⟩, ⟨0, 30⟩] 10 = some r ∧
      r.length = 16 ∧ (⟨3, 3⟩ : V2i) ∈ r := by
  rw [pick_cells_square]
  exact ⟨by decide, _, rfl, by decide, by decide⟩

/-- C12, amended. On the square `(0,0), (30,0), (30,30), (0,30)` with cell size 10 the
outline is the boundary ring of the 4x4 block of cells `{0,1,2,3} x {0,1,2,3}` (the
vertices with a coordinate 30 lie in the cells of index 3), `pick_cells` returns the
full 4x4 block, 16 cells, and the cells the fill adds are the four centre cells. -/
theorem pick_cells_square_block :
    outline hypotQ [⟨0, 0⟩, ⟨30, 0⟩, ⟨30, 30⟩, ⟨0, 30⟩] 10 =
      [⟨0, 0⟩, ⟨0, 1⟩, ⟨0, 2⟩, ⟨0, 3⟩, ⟨1, 0⟩, ⟨1, 3⟩, ⟨2, 0⟩, ⟨2, 3⟩,
        ⟨3, 0⟩, ⟨3, 1⟩, ⟨3, 2⟩, ⟨3, 3⟩] ∧
    pick_cells hypotQ [⟨0, 0⟩, ⟨30, 0⟩, ⟨30, 30⟩, ⟨0, 30⟩] 10 =
      some [⟨0, 0⟩, ⟨0, 1⟩, ⟨0, 2⟩, ⟨0, 3⟩, ⟨1, 0⟩, ⟨1, 1⟩, ⟨1, 2⟩, ⟨1, 3⟩,
        ⟨2, 0⟩, ⟨2, 1⟩, ⟨2, 2⟩, ⟨2, 3⟩, ⟨3, 0⟩, ⟨3, 1⟩, ⟨3, 2⟩, ⟨3, 3⟩] ∧
    ([⟨0, 0⟩, ⟨0, 1⟩, ⟨0, 2⟩, ⟨0, 3⟩, ⟨1, 0⟩, ⟨1, 1⟩, ⟨1, 2⟩, ⟨1, 3⟩,
        ⟨2, 0⟩, ⟨2, 1⟩, ⟨2, 2⟩, ⟨2, 3⟩, ⟨3, 0⟩, ⟨3, 1⟩, ⟨3, 2⟩, ⟨3, 3⟩] : List V2i).filter
      (fun c => decide (c ∉ ([⟨0, 0⟩, ⟨0, 1⟩, ⟨0, 2⟩, ⟨0, 3⟩, ⟨1, 0⟩, ⟨1, 3⟩, ⟨2, 0⟩,
        ⟨2, 3⟩, ⟨3, 0⟩, ⟨3, 1⟩, ⟨3, 2⟩, ⟨3, 3⟩] : List V2i))) =
      [⟨1, 1⟩, ⟨1, 2⟩, ⟨2, 1⟩, ⟨2, 2⟩] :=
  ⟨outline_square, pick_cells_square, by decide⟩

/-- C13 as stated fails, with the exact `hypot` on the reals: on the two points
`(0, 0), (3, 3)` with cell size 1, `pick_cells` does not return the four diagonal
cells. -/
theorem pick_cells_diagonal_counterexample :
    pick_cells (fun x y : ℝ => Real.sqrt (x * x + y * y)) [⟨0, 0⟩, ⟨3, 3⟩] 1 ≠
      some [⟨0, 0⟩, ⟨1, 1⟩, ⟨2, 2⟩, ⟨3, 3⟩] := by
  rw [pick_cells_diagonal _ (Real.sqrt_pos.2 (by norm_num)) (Real.sqrt_pos.2 (by norm_num))]
  decide

section Scenario1Claim

variable {K : Type} [LinearOrderedField K] [FloorRing K]

/-- C13, amended. On the two points `(0, 0), (3, 3)` with cell size 1, for every `hypot`
positive at the two directions, the outline is the union of the two staircases (the
edge traced in each direction, every tie at a grid corner going to the `y` step): the
ten cells `(0,0), (0,1), (1,0), (1,1), (1,2), (2,1), (2,2), (2,3), (3,2), (3,3)`; the
fill adds nothing and `pick_cells` returns those ten cells. -/
theorem pick_cells_diagonal_staircases (hypot : K → K → K) (h1 : 0 < hypot 3 3)
    (h2 : 0 < hypot (-3) (-3)) :
    outline hypot [⟨0, 0⟩, ⟨3, 3⟩] 1 =
      [⟨0, 0⟩, ⟨0, 1⟩, ⟨1, 0⟩, ⟨1, 1⟩, ⟨1, 2⟩, ⟨2, 1⟩, ⟨2, 2⟩, ⟨2, 3⟩, ⟨3, 2⟩, ⟨3, 3⟩] ∧
    pick_cells hypot [⟨0, 0⟩, ⟨3, 3⟩] 1 =
      some [⟨0, 0⟩, ⟨0, 1⟩, ⟨1, 0⟩, ⟨1, 1⟩, ⟨1, 2⟩, ⟨2, 1⟩, ⟨2, 2⟩, ⟨2, 3⟩,
        ⟨3, 2⟩, ⟨3, 3⟩] :=
  ⟨outline_diagonal hypot h1 h2, pick_cells_diagonal hypot h1 h2⟩

/-- C19. For at least 2 points and a positive cell size the outline assembled by
`pick_cells` is not empty when the fill reads its first element: the outline has a
first cell, the fill returns a set, and every `trace_line` result contains its start
cell. -/
theorem outline_has_first_cell (hypot : K → K → K) (points : List (V2 K)) (s : Nat)
    (hn : 2 ≤ points.length) (_hs : 0 < s) :
    outline hypot points s ≠ [] ∧
    (∃ c0, (outline hypot points s).head? = some c0) ∧
    (∃ r, inner_fill (outline hypot points s) = some r) ∧
    ∀ a b : V2 K, point_to_grid_fnc s a ∈ trace_line hypot a b s := by
  have hne : points ≠ [] := by
    intro h
    rw [h] at hn
    simp at hn
  have hout := outline_ne_nil hypot points s hne
  refine ⟨hout, ?_, ?_, fun a b => start_cell_mem_trace_line hypot a b s⟩
  · cases hc : outline hypot points s with
    | nil => exact absurd hc hout
    | cons c0 cs => exact ⟨c0, rfl⟩
  · obtain ⟨r, hr, _⟩ := inner_fill_of_ne_nil _ hout
    exact ⟨r, hr⟩

end Scenario1Claim

/-- C13, amended, at `hypotQ`, whose value at `(3, 3)` and at `(-3, -3)` is 4. -/
theorem pick_cells_diagonal_staircases_witness :
    0 < hypotQ 3 3 ∧ 0 < hypotQ (-3) (-3) ∧
    outline hypotQ [⟨0, 0⟩, ⟨3, 3⟩] 1 =
      [⟨0, 0⟩, ⟨0, 1⟩, ⟨1, 0⟩, ⟨1, 1⟩, ⟨1, 2⟩, ⟨2, 1⟩, ⟨2, 2⟩, ⟨2, 3⟩, ⟨3, 2⟩, ⟨3, 3⟩] ∧
    pick_cells hypotQ [⟨0, 0⟩, ⟨3, 3⟩] 1 =
      some [⟨0, 0⟩, ⟨0, 1⟩, ⟨1, 0⟩, ⟨1, 1⟩, ⟨1, 2⟩, ⟨2, 1⟩, ⟨2, 2⟩, ⟨2, 3⟩,
        ⟨3, 2⟩, ⟨3, 3⟩] :=
  ⟨by rw [hypotQ_three_three]; norm_num, by rw [hypotQ_neg_three_neg_three]; norm_num,
    pick_cells_diagonal_staircases hypotQ (by rw [hypotQ_three_three]; norm_num)
      (by rw [hypotQ_neg_three_neg_three]; norm_num)⟩

/-- C14, at the triangle `(0, 4), (3, 0), (3, 4)` with cell size 1. Its vertices have
integer coordinates and its bounding box is `0 ≤ x ≤ 3`, `0 ≤ y ≤ 4`; `pick_cells`
returns a set holding the cell `(2, -1)`, whose `y` is below the `y` of every vertex. -/
theorem pick_cells_triangle_leaves_bounding_box :
    ∃ r, pick_cells hypotQ [⟨0, 4⟩, ⟨3, 0⟩, ⟨3, 4⟩] 1 = some r ∧
      ∃ c ∈ r, c = (⟨2, -1⟩ : V2i) ∧
        (c.y : ℚ) < 4 ∧ (c.y : ℚ) < 0 ∧ (c.y : ℚ) < 4 := by
  rw [pick_cells_triangle]
  exact ⟨_, rfl, ⟨2, -1⟩, by decide, rfl, by norm_num, by norm_num, by norm_num⟩

/-- C19, at the two points `(1/2, 1/2), (5/2, 1/2)` with cell size 1. -/
theorem outline_has_first_cell_witness :
    2 ≤ ([⟨1/2, 1/2⟩, ⟨5/2, 1/2⟩] : List (V2 ℚ)).length ∧ 0 < 1 ∧
    outline hypotQ [⟨1/2, 1/2⟩, ⟨5/2, 1/2⟩] 1 ≠ [] ∧
    (∃ c0, (outline hypotQ [⟨1/2, 1/2⟩, ⟨5/2, 1/2⟩] 1).head? = some c0) ∧
    (∃ r, inner_fill (outline hypotQ [⟨1/2, 1/2⟩, ⟨5/2, 1/2⟩] 1) = some r) ∧
    ∀ a b : V2 ℚ, point_to_grid_fnc 1 a ∈ trace_line hypotQ a b 1 :=
  ⟨by decide, by decide,
    outline_has_first_cell hypotQ [⟨1/2, 1/2⟩, ⟨5/2, 1/2⟩] 1 (by decide) (by decide)⟩

/-! ## Reversal of an edge

The trace of a segment read from its other end: the lemmas behind the reversal
invariance of `pick_cells`. -/

section Merge

variable {K : Type} [LinearOrderedField K]

end Merge

section NoWrap

variable {K : Type} [LinearOrderedField K] [FloorRing K]

end NoWrap

section AxisFacts

variable {K : Type} [LinearOrderedField K] [FloorRing K]

end AxisFacts

section Mirror

variable {K : Type} [LinearOrderedField K]

end Mirror

section SlantedEdge

variable {K : Type} [LinearOrderedField K] [FloorRing K]

end SlantedEdge

section SymmetricEdge

variable {K : Type} [LinearOrderedField K] [FloorRing K]

end SymmetricEdge

section AxisParallelEdge

variable {K : Type} [LinearOrderedField K] [FloorRing K]

end AxisParallelEdge

section ReverseClaim

variable {K : Type} [LinearOrderedField K] [FloorRing K]

end ReverseClaim

theorem size_t_mul_neg_one_one :
    size_t_mul (size_t_of_int (-1)) 1 = 18446744073709551615 := by decide

theorem size_t_mul_neg_two_one :
    size_t_mul (size_t_of_int (-2)) 1 = 18446744073709551614 := by decide

/-- The slanted edge of the triangle `(-3/2, -7/4), (-3/4, -3/4), (-3/4, -7/4)`, cell
size 1, upwards. -/
theorem trace_moved_ab :
    trace_line hypotQ ⟨-3/2, -7/4⟩ ⟨-3/4, -3/4⟩ 1 = [⟨-2, -2⟩, ⟨-2, -1⟩, ⟨-2, 0⟩] := by
  have hh : hypotQ (3/4) 1 = 5/4 := hypotQ_eq _ _ _ (by norm_num) (by norm_num)
  simp only [trace_line, point_to_grid_fnc, V2.sub]
  norm_num [hh, size_t_mul_neg_one_one, size_t_mul_neg_two_one, size_t_mul_zero_one, DBL_MAX]
  norm_num [trace_loop, abs_div, abs_neg, Nat.abs_ofNat]
  decide

/-- The slanted edge of the moved triangle, downwards. -/
theorem trace_moved_ba :
    trace_line hypotQ ⟨-3/4, -3/4⟩ ⟨-3/2, -7/4⟩ 1 = [⟨-1, -3⟩, ⟨-1, -2⟩, ⟨-1, -1⟩] := by
  have hh : hypotQ (-(3/4)) (-1) = 5/4 := hypotQ_eq _ _ _ (by norm_num) (by norm_num)
  simp only [trace_line, point_to_grid_fnc, V2.sub]
  norm_num [hh, size_t_mul_neg_one_one, size_t_mul_neg_two_one, size_t_mul_zero_one, DBL_MAX]
  norm_num [trace_loop, abs_div, abs_neg, Nat.abs_ofNat]
  decide

/-- The vertical edge of the moved triangle, downwards. -/
theorem trace_moved_bc :
    trace_line hypotQ ⟨-3/4, -3/4⟩ ⟨-3/4, -7/4⟩ 1 = [⟨-1, -2⟩, ⟨-1, -1⟩] := by
  have hh : hypotQ (0) (-1) = 1 := hypotQ_eq _ _ _ (by norm_num) (by norm_num)
  simp only [trace_line, point_to_grid_fnc, V2.sub]
  norm_num [hh, size_t_mul_neg_one_one, size_t_mul_neg_two_one, size_t_mul_zero_one, DBL_MAX]
  norm_num [trace_loop, abs_div, abs_neg, Nat.abs_ofNat]
  decide

/-- The vertical edge of the moved triangle, upwards. -/
theorem trace_moved_cb :
    trace_line hypotQ ⟨-3/4, -7/4⟩ ⟨-3/4, -3/4⟩ 1 = [⟨-1, -2⟩, ⟨-1, -1⟩] := by
  have hh : hypotQ (0) (1) = 1 := hypotQ_eq _ _ _ (by norm_num) (by norm_num)
  simp only [trace_line, point_to_grid_fnc, V2.sub]
  norm_num [hh, size_t_mul_neg_one_one, size_t_mul_neg_two_one, size_t_mul_zero_one, DBL_MAX]
  norm_num [trace_loop, abs_div, abs_neg, Nat.abs_ofNat]
  decide

/-- The horizontal edge of the moved triangle, leftwards. -/
theorem trace_moved_ca :
    trace_line hypotQ ⟨-3/4, -7/4⟩ ⟨-3/2, -7/4⟩ 1 = [⟨-2, -2⟩, ⟨-1, -2⟩] := by
  have hh : hypotQ (-(3/4)) (0) = 3/4 := hypotQ_eq _ _ _ (by norm_num) (by norm_num)
  simp only [trace_line, point_to_grid_fnc, V2.sub]
  norm_num [hh, size_t_mul_neg_one_one, size_t_mul_neg_two_one, size_t_mul_zero_one, DBL_MAX]
  norm_num [trace_loop, abs_div, abs_neg, Nat.abs_ofNat]
  decide

/-- The horizontal edge of the moved triangle, rightwards. -/
theorem trace_moved_ac :
    trace_line hypotQ ⟨-3/2, -7/4⟩ ⟨-3/4, -7/4⟩ 1 = [⟨-2, -2⟩, ⟨-1, -2⟩] := by
  have hh : hypotQ (3/4) (0) = 3/4 := hypotQ_eq _ _ _ (by norm_num) (by norm_num)
  simp only [trace_line, point_to_grid_fnc, V2.sub]
  norm_num [hh, size_t_mul_neg_one_one, size_t_mul_neg_two_one, size_t_mul_zero_one, DBL_MAX]
  norm_num [trace_loop, abs_div, abs_neg, Nat.abs_ofNat]
  decide

/-- The range condition of the reversal invariance cannot be dropped. The triangle
`(-3/2, -7/4), (-3/4, -3/4), (-3/4, -7/4)`, cell size 1, is the triangle
`(1/2, 1/4), (5/4, 5/4), (5/4, 1/4)` moved by `(-2, -2)`; none of its edges contains a
grid corner, and `pick_cells` returns 5 cells in the given order and 4 other cells in the
reversed order: at negative cells the products `(start_cell.x + 1) * _cell_size` and
`start_cell.y * _cell_size` wrap. -/
theorem pick_cells_reverse_negative_coordinates :
    (∀ e ∈ closed_edges ([⟨-3/2, -7/4⟩, ⟨-3/4, -3/4⟩, ⟨-3/4, -7/4⟩] : List (V2 ℚ)),
      ∀ (m n : Int) (t : ℚ), 0 ≤ t → t ≤ 1 →
        e.1.x + t * (e.2.x - e.1.x) = (m : ℚ) * ((1 : Nat) : ℚ) →
        e.1.y + t * (e.2.y - e.1.y) = (n : ℚ) * ((1 : Nat) : ℚ) → False) ∧
    pick_cells hypotQ [⟨-3/2, -7/4⟩, ⟨-3/4, -3/4⟩, ⟨-3/4, -7/4⟩] 1 =
      some [⟨-2, -2⟩, ⟨-2, -1⟩, ⟨-2, 0⟩, ⟨-1, -2⟩, ⟨-1, -1⟩] ∧
    pick_cells hypotQ ([⟨-3/2, -7/4⟩, ⟨-3/4, -3/4⟩, ⟨-3/4, -7/4⟩] : List (V2 ℚ)).reverse 1 =
      some [⟨-2, -2⟩, ⟨-1, -3⟩, ⟨-1, -2⟩, ⟨-1, -1⟩] := by
  refine ⟨?_, ?_, ?_⟩
  · intro e he
    simp only [closed_edges, List.zip_cons_cons, List.zip_nil_right,
      List.getLast_cons_cons, List.getLast_singleton, List.cons_append, List.nil_append,
      List.mem_cons, List.mem_singleton, List.not_mem_nil, or_false] at he
    rcases he with rfl | rfl | rfl
    · intro m n t ht0 ht1 hm hn
      simp only [Nat.cast_one, mul_one] at hm hn
      have hn0 : (-2 : ℚ) < (n : ℚ) := by linarith only [hn, ht0]
      have hn2 : (n : ℚ) < 0 := by linarith only [hn, ht1]
      have hn0' : -2 < n := by exact_mod_cast hn0
      have hn2' : n < 0 := by exact_mod_cast hn2
      have hn1 : n = -1 := by omega
      rw [hn1, Int.cast_neg, Int.cast_one] at hn
      have hm16 : (16 : ℚ) * (m : ℚ) = -15 := by linarith only [hm, hn]
      have : (16 : Int) * m = -15 := by exact_mod_cast hm16
      omega
    · intro m n t _ _ hm _
      simp only [Nat.cast_one, mul_one] at hm
      have hm4 : (4 : ℚ) * (m : ℚ) = -3 := by linarith only [hm]
      have : (4 : Int) * m = -3 := by exact_mod_cast hm4
      omega
    · intro m n t _ _ _ hn
      simp only [Nat.cast_one, mul_one] at hn
      have hn4 : (4 : ℚ) * (n : ℚ) = -7 := by linarith only [hn]
      have : (4 : Int) * n = -7 := by exact_mod_cast hn4
      omega
  · simp only [pick_cells, outline, closed_edges, List.zip_cons_cons, List.zip_nil_right,
      List.getLast_cons_cons, List.getLast_singleton, List.cons_append, List.nil_append,
      List.map_cons, List.map_nil, trace_moved_ab, trace_moved_bc, trace_moved_ca]
    decide
  · simp only [List.reverse_cons, List.reverse_nil, List.nil_append, List.cons_append,
      pick_cells, outline, closed_edges, List.zip_cons_cons, List.zip_nil_right,
      List.getLast_cons_cons, List.getLast_singleton,
      List.map_cons, List.map_nil, trace_moved_cb, trace_moved_ba, trace_moved_ac]
    decide

end trace
